import Mathlib

/-!
# The pokedex cache: a shallow embedding and its contract

Source files embedded here:

* `internal/pokecache/cache.go`: `Cache`, `cacheEntry`, `NewCache`, `Set`, `Get`,
  `cleanupExpiredEntries`, `Iterate`, `SavePokedex`, `LoadPokedex`;
* `main.go` and `cmd/pokecommand/commands.go`: the read-eval loop, `saveAndExit`,
  `CommandExit`, the signal handler.

Modelling conventions.

* A Go `string` and a Go `[]byte` are both finite sequences of bytes (`List Byte`); a Go
  string need not be valid UTF-8.  A `nil` slice and an empty slice are both `[]`.
* `time.Time` is an integer reading of the clock in nanoseconds, `time.Duration` an integer
  number of nanoseconds, and `time.Since t` is `now - t` for the reading `now` at which the
  operation runs.  Every operation that reads the clock takes `now` as an argument.  The
  integers are unbounded: the code does no arithmetic on durations of its own, its one
  constant (`100 * 365 * 24 * time.Hour`) fits 64 bits, and the saturation of `time.Since`
  beyond 2^63 ns (292 years of elapsed time) is left out.
* The Go map `map[string]cacheEntry` is an association list without duplicate keys
  (`AList`); the order of its entries stands for the (unspecified) order in which `range`
  visits the map, and every order is the order of some store.
* The mutex is not modelled: every operation is one atomic step on the store.
* The file system and the package `encoding/json` are outside the repository.  The
  operations that use them take them as arguments (`FileSystem`, `JSON`); `goJSON` models
  the Go library at the one type the cache uses, `map[string][]byte`.
-/

namespace Pokedex

/-! ## Data model -/

/-- One byte. -/
abbrev Byte := Fin 256

/-- A Go `string`: a finite sequence of bytes. -/
abbrev GoString := List Byte

/-- A Go `[]byte`. -/
abbrev Bytes := List Byte

/-- The function `time.Since`, at clock reading `now`: clock readings (`time.Time`) and
durations (`time.Duration`) are integers, in nanoseconds. -/
def timeSince (now t : Int) : Int := now - t

/-- The constant `time.Hour`. -/
def Hour : Int := 3600 * 1000000000

/-- The struct `cacheEntry` of `cache.go`. -/
structure cacheEntry where
  createdAt : Int
  val : Bytes
  expireAfter : Int
deriving DecidableEq, Repr

/-- The Go map `map[string]cacheEntry`. -/
abbrev EntryMap := AList (fun _ : GoString => cacheEntry)

/-- The struct `Cache` of `cache.go` (without its mutex). -/
structure Cache where
  cache : EntryMap
  defaultExpiration : Int
  cleanupInterval : Int

/-- The constructor `NewCache`: an empty map and the two configured durations. -/
def NewCache (cleanupInterval defaultExpiration : Int) : Cache :=
  { cache := ∅, cleanupInterval := cleanupInterval, defaultExpiration := defaultExpiration }

/-! ## Store operations -/

/-- The local variable `expiration` of `Cache.Set`: the first duration passed, or the
default of the store when none is passed. -/
def Cache.expiration (c : Cache) (expireAfter : List Int) : Int :=
  match expireAfter with
  | d :: _ => d
  | [] => c.defaultExpiration

/-- The method `Cache.Set`, run at clock reading `now`.  The variadic parameter
`expireAfter ...time.Duration` is the list of the durations passed. -/
def Cache.Set (c : Cache) (now : Int) (key : GoString) (value : Bytes)
    (expireAfter : List Int) : Cache :=
  let entry : cacheEntry :=
    { createdAt := now, val := value, expireAfter := c.expiration expireAfter }
  { c with cache := c.cache.insert key entry }

/-- The method `Cache.Get`, run at clock reading `now`: the pair `(value, found)`. -/
def Cache.Get (c : Cache) (now : Int) (key : GoString) : Bytes × Bool :=
  match c.cache.lookup key with
  | none => ([], false)
  | some entry =>
    if entry.expireAfter ≠ 0 ∧ timeSince now entry.createdAt > entry.expireAfter then
      ([], false)
    else
      (entry.val, true)

/-- One round of the loop of `cleanupExpiredEntries`, after the sleep, at clock reading
`now`: range over the map and delete each key whose entry has expired. -/
def Cache.cleanupPass (c : Cache) (now : Int) : Cache :=
  let swept : EntryMap := c.cache.entries.foldl
    (fun m kv =>
      if kv.2.expireAfter ≠ 0 ∧ timeSince now kv.2.createdAt > kv.2.expireAfter then
        m.erase kv.1
      else m)
    c.cache
  { c with cache := swept }

/-- The method `cleanupExpiredEntries`, unrolled over the clock readings at which its
successive rounds run. -/
def Cache.cleanupExpiredEntries (c : Cache) (wakeups : List Int) : Cache :=
  wakeups.foldl Cache.cleanupPass c

/-- The loop of `Cache.Iterate` over the entries still to visit.  The visitor `f` may have
effects: they are the state `σ` that is threaded through its calls. -/
def iterateLoop {σ : Type} (f : σ → GoString → Bytes → σ × Bool) :
    List (Sigma fun _ : GoString => cacheEntry) → σ → σ
  | [], s => s
  | kv :: rest, s =>
    if !(f s kv.1 kv.2.val).2 then (f s kv.1 kv.2.val).1
    else iterateLoop f rest (f s kv.1 kv.2.val).1

/-- The method `Cache.Iterate`: the store after the call and the visitor state after it. -/
def Cache.Iterate {σ : Type} (c : Cache) (f : σ → GoString → Bytes → σ × Bool) (s : σ) :
    Cache × σ :=
  (c, iterateLoop f c.cache.entries s)

/-- One call of a visitor as seen from outside: its arguments and its answer. -/
structure Call where
  key : GoString
  value : Bytes
  goOn : Bool
deriving DecidableEq, Repr

/-- A visitor that behaves as `f` and also appends each of its calls to a log. -/
def recording {σ : Type} (f : σ → GoString → Bytes → σ × Bool) :
    σ × List Call → GoString → Bytes → (σ × List Call) × Bool :=
  fun st k v => (((f st.1 k v).1, st.2 ++ [⟨k, v, (f st.1 k v).2⟩]), (f st.1 k v).2)

/-- The calls that `Cache.Iterate` makes to the visitor `f`, in order: the log of the
recording visitor, started empty. -/
def Cache.iterateLog {σ : Type} (c : Cache) (f : σ → GoString → Bytes → σ × Bool) (s : σ) :
    List Call :=
  (c.Iterate (recording f) (s, [])).2.2

/-! ## Snapshot persistence -/

/-- Go `error` values, as far as the code tells them apart: `os.IsNotExist` holds of
`notExist` only. -/
inductive GoError where
  | notExist
  | other (msg : String)
deriving DecidableEq, Repr

/-- The Go map `map[string][]byte` handled by `SavePokedex` and `LoadPokedex`. -/
abbrev ByteMap := AList (fun _ : GoString => Bytes)

/-- The two functions of `encoding/json` that the cache calls, at the type
`map[string][]byte`.  They are library code, taken as a parameter. -/
structure JSON where
  Marshal : ByteMap → Except GoError Bytes
  Unmarshal : Bytes → Except GoError ByteMap

/-- The file system as `ioutil.ReadFile` and `ioutil.WriteFile` see it: the content of the
files that exist, and the paths at which the system refuses access, with the error. -/
structure FileSystem where
  content : String → Option Bytes
  fault : String → Option GoError

/-- The function `ioutil.ReadFile`. -/
def ReadFile (fs : FileSystem) (path : String) : Except GoError Bytes :=
  match fs.fault path with
  | some e => .error e
  | none =>
    match fs.content path with
    | none => .error .notExist
    | some data => .ok data

/-- The function `ioutil.WriteFile`: the file system after the call and the error, if any. -/
def WriteFile (fs : FileSystem) (path : String) (data : Bytes) : FileSystem × Option GoError :=
  match fs.fault path with
  | some e => (fs, some e)
  | none => ({ fs with content := fun p => if p = path then some data else fs.content p }, none)

/-- The string `"caught:"`. -/
def caughtPrefix : GoString := [99, 97, 117, 103, 104, 116, 58]

/-- The function `strings.HasPrefix`. -/
def HasPrefix (s pre : GoString) : Bool := pre.isPrefixOf s

/-- The loop of `SavePokedex` that builds the map `caughtPokemons`. -/
def Cache.caughtPokemons (c : Cache) : ByteMap :=
  c.cache.entries.foldl
    (fun m kv => if HasPrefix kv.1 caughtPrefix then m.insert kv.1 kv.2.val else m) ∅

/-- The method `Cache.SavePokedex`: the file system after the call and the error, if any. -/
def Cache.SavePokedex (J : JSON) (c : Cache) (fs : FileSystem) (filepath : String) :
    FileSystem × Option GoError :=
  match J.Marshal c.caughtPokemons with
  | .error err => (fs, some err)
  | .ok data => WriteFile fs filepath data

/-- The expiration `100 * 365 * 24 * time.Hour` given to reloaded entries. -/
def longExpiration : Int := 100 * 365 * 24 * Hour

/-- The loop of `LoadPokedex` that inserts the decoded pairs, at clock reading `now`. -/
def Cache.insertLoaded (c : Cache) (now : Int) (caughtPokemons : ByteMap) : Cache :=
  let loaded : EntryMap := caughtPokemons.entries.foldl
    (fun m kv => m.insert kv.1
      { createdAt := now, val := kv.2, expireAfter := longExpiration })
    c.cache
  { c with cache := loaded }

/-- The method `Cache.LoadPokedex`, run at clock reading `now`: the store after the call and
the error, if any. -/
def Cache.LoadPokedex (J : JSON) (c : Cache) (now : Int) (fs : FileSystem)
    (filepath : String) : Cache × Option GoError :=
  match ReadFile fs filepath with
  | .error err => if err = GoError.notExist then (c, none) else (c, some err)
  | .ok data =>
    match J.Unmarshal data with
    | .error err => (c, some err)
    | .ok caughtPokemons => (c.insertLoaded now caughtPokemons, none)

/-! ## Histories of writes -/

/-- The operations that change the store: a `Set`, one round of the sweep, and the
insertion of the pairs a successful `LoadPokedex` decoded.  (`Get`, `Iterate`,
`SavePokedex` and a failed or file-less `LoadPokedex` leave the store as it is.) -/
inductive Op where
  | set (key : GoString) (value : Bytes) (expireAfter : List Int)
  | sweep
  | load (caughtPokemons : ByteMap)

/-- The operation writes the entry of `k`. -/
def Op.writes (k : GoString) : Op → Prop
  | .set key _ _ => key = k
  | .sweep => False
  | .load m => k ∈ m

instance (k : GoString) (o : Op) : Decidable (o.writes k) := by
  cases o <;> unfold Op.writes <;> infer_instance

/-- One operation on the store, at clock reading `now`. -/
def Cache.step (c : Cache) (now : Int) : Op → Cache
  | .set key value expireAfter => c.Set now key value expireAfter
  | .sweep => c.cleanupPass now
  | .load m => c.insertLoaded now m

/-- A history: operations with the clock readings at which they run, in order. -/
def Cache.run (c : Cache) : List (Int × Op) → Cache
  | [] => c
  | (t, o) :: rest => (c.step t o).run rest

/-! ## The liveness predicate of the specification -/

/-- An entry is live at `now`: "`ttl == 0 OR now - createdAt <= ttl`". -/
def Live (now : Int) (e : cacheEntry) : Prop :=
  e.expireAfter = 0 ∨ now - e.createdAt ≤ e.expireAfter

instance (now : Int) (e : cacheEntry) : Decidable (Live now e) := by
  unfold Live; infer_instance

/-- The calls that the specification asks of `Iterate` over the entries `l`, from the
visitor state `s`: the first entry is visited with its key and raw value; if the visitor
answers "continue" the visit goes on with the next entry, in the state the call left; if
it answers "stop" there is no further call. -/
def visits {σ : Type} (f : σ → GoString → Bytes → σ × Bool) :
    List (Sigma fun _ : GoString => cacheEntry) → σ → List Call
  | [], _ => []
  | kv :: rest, s =>
    ⟨kv.1, kv.2.val, (f s kv.1 kv.2.val).2⟩ ::
      (if (f s kv.1 kv.2.val).2 then visits f rest (f s kv.1 kv.2.val).1 else [])

/-! ## The library functions behind `json.Marshal` and `json.Unmarshal`

The packages `unicode/utf8`, `encoding/base64` and `encoding/json` of the Go library, as far
as the cache uses them: at the type `map[string][]byte`. -/

/-! ### UTF-8 (package unicode/utf8) -/

/-- The constant `utf8.RuneError`. -/
def RuneError : Nat := 0xFFFD

/-- The table `acceptRanges`, lower end: the least second byte accepted after the first
byte `s0` of a rune of several bytes. -/
def acceptLo (s0 : Byte) : Nat :=
  if s0.val = 0xE0 then 0xA0 else if s0.val = 0xF0 then 0x90 else 0x80

/-- The table `acceptRanges`, upper end. -/
def acceptHi (s0 : Byte) : Nat :=
  if s0.val = 0xED then 0x9F else if s0.val = 0xF4 then 0x8F else 0xBF

/-- The function `utf8.DecodeRune`: the rune at the head of the bytes and its width. -/
def DecodeRune (s : List Byte) : Nat × Nat :=
  match s with
  | [] => (RuneError, 0)
  | s0 :: t =>
    if s0.val < 0x80 then (s0.val, 1)
    else if s0.val < 0xC2 ∨ 0xF4 < s0.val then (RuneError, 1)
    else
      match t with
      | [] => (RuneError, 1)
      | s1 :: t =>
        if s1.val < acceptLo s0 ∨ acceptHi s0 < s1.val then (RuneError, 1)
        else if s0.val < 0xE0 then (s0.val % 32 * 64 + s1.val % 64, 2)
        else
          match t with
          | [] => (RuneError, 1)
          | s2 :: t =>
            if s2.val < 0x80 ∨ 0xBF < s2.val then (RuneError, 1)
            else if s0.val < 0xF0 then
              (s0.val % 16 * 4096 + s1.val % 64 * 64 + s2.val % 64, 3)
            else
              match t with
              | [] => (RuneError, 1)
              | s3 :: _ =>
                if s3.val < 0x80 ∨ 0xBF < s3.val then (RuneError, 1)
                else (s0.val % 8 * 262144 + s1.val % 64 * 4096 + s2.val % 64 * 64
                        + s3.val % 64, 4)

/-- A number below 256 as a byte. -/
def byte (n : Nat) : Byte := Fin.ofNat n

/-- The function `utf8.EncodeRune` (`utf8.AppendRune`): the bytes of a rune. -/
def EncodeRune (r : Nat) : List Byte :=
  if r < 0x80 then [byte r]
  else if r < 0x800 then [byte (0xC0 + r / 64), byte (0x80 + r % 64)]
  else if 0x10FFFF < r ∨ (0xD800 ≤ r ∧ r ≤ 0xDFFF) then [0xEF, 0xBF, 0xBD]
  else if r < 0x10000 then
    [byte (0xE0 + r / 4096), byte (0x80 + r / 64 % 64), byte (0x80 + r % 64)]
  else
    [byte (0xF0 + r / 262144), byte (0x80 + r / 4096 % 64), byte (0x80 + r / 64 % 64),
      byte (0x80 + r % 64)]

/-- The loop of `utf8.Valid`, with the number of bytes as fuel. -/
def validLoop : Nat → List Byte → Bool
  | _, [] => true
  | 0, _ :: _ => false
  | fuel + 1, b :: rest =>
    if (DecodeRune (b :: rest)).1 = RuneError ∧ (DecodeRune (b :: rest)).2 = 1 then false
    else validLoop fuel ((b :: rest).drop (DecodeRune (b :: rest)).2)

/-- The function `utf8.ValidString`. -/
def ValidString (s : GoString) : Bool := validLoop s.length s


/-! ### Base64 (package encoding/base64, `StdEncoding`) -/

/-- The alphabet of `base64.StdEncoding`: the character of a 6-bit value. -/
def b64Char (n : Nat) : Byte :=
  if n < 26 then byte (65 + n)
  else if n < 52 then byte (97 + (n - 26))
  else if n < 62 then byte (48 + (n - 52))
  else if n = 62 then 43
  else 47

/-- The decoding table of `base64.StdEncoding`: the 6-bit value of a character. -/
def b64Val (b : Byte) : Option Nat :=
  if 65 ≤ b.val ∧ b.val ≤ 90 then some (b.val - 65)
  else if 97 ≤ b.val ∧ b.val ≤ 122 then some (b.val - 97 + 26)
  else if 48 ≤ b.val ∧ b.val ≤ 57 then some (b.val - 48 + 52)
  else if b.val = 43 then some 62
  else if b.val = 47 then some 63
  else none

/-- The method `StdEncoding.EncodeToString`. -/
def base64Encode : List Byte → List Byte
  | a :: b :: c :: rest =>
    b64Char (a.val / 4) :: b64Char (a.val % 4 * 16 + b.val / 16) ::
      b64Char (b.val % 16 * 4 + c.val / 64) :: b64Char (c.val % 64) :: base64Encode rest
  | [a, b] =>
    [b64Char (a.val / 4), b64Char (a.val % 4 * 16 + b.val / 16), b64Char (b.val % 16 * 4), 61]
  | [a] => [b64Char (a.val / 4), b64Char (a.val % 4 * 16), 61, 61]
  | [] => []

/-- The quanta of `StdEncoding.Decode`, on input without line breaks: groups of four
characters, the last of which may end in one or two padding characters `=`. -/
def decodeQuanta : List Byte → Option (List Byte)
  | [] => some []
  | a :: b :: c :: d :: rest =>
    match b64Val a, b64Val b with
    | some x0, some x1 =>
      match b64Val c with
      | some x2 =>
        match b64Val d with
        | some x3 =>
          (decodeQuanta rest).map fun out =>
            byte (x0 * 4 + x1 / 16) :: byte (x1 % 16 * 16 + x2 / 4) :: byte (x2 % 4 * 64 + x3)
              :: out
        | none =>
          if d = 61 ∧ rest = [] then
            some [byte (x0 * 4 + x1 / 16), byte (x1 % 16 * 16 + x2 / 4)]
          else none
      | none =>
        if c = 61 ∧ d = 61 ∧ rest = [] then some [byte (x0 * 4 + x1 / 16)] else none
    | _, _ => none
  | _ => none

/-- The method `StdEncoding.Decode`: line breaks (`\r`, `\n`) are skipped wherever they
stand, then the quanta are decoded; `none` is a `CorruptInputError`. -/
def base64Decode (s : List Byte) : Option (List Byte) :=
  decodeQuanta (s.filter fun b => b ≠ 10 ∧ b ≠ 13)

/-! ### Encoding (package encoding/json) -/

/-- The digit of a 4-bit value in `"0123456789abcdef"`. -/
def hexDigit (n : Nat) : Byte := if n < 10 then byte (48 + n) else byte (87 + n)

/-- The table `htmlSafeSet`: the ASCII bytes written as they are. -/
def htmlSafe (b : Byte) : Bool :=
  0x20 ≤ b.val ∧ b.val < 0x80 ∧ b ≠ 34 ∧ b ≠ 38 ∧ b ≠ 60 ∧ b ≠ 62 ∧ b ≠ 92

/-- The escape that `appendString` writes for an ASCII byte outside `htmlSafeSet`: a
two-character escape for the quote, the backslash and the control characters that have one
(older releases of the library write `\u0008` and `\u000c` for two of them, which are read
back alike), and `\u00XX` for the others, among them `<`, `>` and `&`. -/
def escapeByte (b : Byte) : List Byte :=
  if b = 92 ∨ b = 34 then [92, b]
  else if b = 8 then [92, 98]
  else if b = 12 then [92, 102]
  else if b = 10 then [92, 110]
  else if b = 13 then [92, 114]
  else if b = 9 then [92, 116]
  else [92, 117, 48, 48, hexDigit (b.val / 16), hexDigit (b.val % 16)]

/-- The loop of `appendString` (with `escapeHTML` set), with the number of bytes as fuel:
what is written between the quotes.  A byte that does not start a well-formed rune is
written as `\ufffd`: the string is coerced to valid UTF-8. -/
def appendStringLoop : Nat → List Byte → List Byte
  | 0, _ => []
  | _ + 1, [] => []
  | fuel + 1, b :: rest =>
    if b.val < 0x80 then
      (if htmlSafe b then [b] else escapeByte b) ++ appendStringLoop fuel rest
    else if (DecodeRune (b :: rest)).1 = RuneError ∧ (DecodeRune (b :: rest)).2 = 1 then
      [92, 117, 102, 102, 102, 100] ++ appendStringLoop fuel rest
    else if (DecodeRune (b :: rest)).1 = 0x2028 ∨ (DecodeRune (b :: rest)).1 = 0x2029 then
      [92, 117, 50, 48, 50, hexDigit ((DecodeRune (b :: rest)).1 % 16)]
        ++ appendStringLoop fuel ((b :: rest).drop (DecodeRune (b :: rest)).2)
    else
      (b :: rest).take (DecodeRune (b :: rest)).2
        ++ appendStringLoop fuel ((b :: rest).drop (DecodeRune (b :: rest)).2)

/-- The function `appendString`: a Go string as a JSON string literal. -/
def appendString (s : GoString) : List Byte :=
  34 :: (appendStringLoop s.length s ++ [34])

/-- One member of the object written by `json.Marshal`: key, colon, and the bytes in
base64 between quotes.  (A `nil` slice, which this model does not tell from an empty one,
is written `null` by the library; both are read back as the empty sequence.) -/
def encodeMember (kv : Sigma fun _ : GoString => Bytes) : List Byte :=
  appendString kv.1 ++ 58 :: 34 :: (base64Encode kv.2 ++ [34])

/-- The members of the object, separated by commas. -/
def encodeMembers : List (Sigma fun _ : GoString => Bytes) → List Byte
  | [] => []
  | [kv] => encodeMember kv
  | kv :: rest => encodeMember kv ++ 44 :: encodeMembers rest

/-- The function `json.Marshal` at the type `map[string][]byte`, for a map that is not
`nil`: the members in the order of their keys (`strings.Compare`, byte by byte). -/
def jsonMarshal (m : ByteMap) : Except GoError Bytes :=
  .ok (123 :: (encodeMembers (m.entries.insertionSort fun a b => a.1 ≤ b.1) ++ [125]))

/-! ### Decoding (package encoding/json) -/

/-- The white space of JSON is skipped. -/
def skipSpace : List Byte → List Byte
  | [] => []
  | b :: rest => if b = 32 ∨ b = 9 ∨ b = 13 ∨ b = 10 then skipSpace rest else b :: rest

/-- The value of a hexadecimal digit. -/
def hexVal (b : Byte) : Option Nat :=
  if 48 ≤ b.val ∧ b.val ≤ 57 then some (b.val - 48)
  else if 97 ≤ b.val ∧ b.val ≤ 102 then some (b.val - 97 + 10)
  else if 65 ≤ b.val ∧ b.val ≤ 70 then some (b.val - 65 + 10)
  else none

/-- The function `getu4`: the number written by a `\uXXXX` at the head of the bytes. -/
def getu4 (s : List Byte) : Option Nat :=
  match s with
  | bs :: u :: a :: b :: c :: d :: _ =>
    if bs = 92 ∧ u = 117 then
      match hexVal a, hexVal b, hexVal c, hexVal d with
      | some x, some y, some z, some w => some (x * 4096 + y * 256 + z * 16 + w)
      | _, _, _, _ => none
    else none
  | _ => none

/-- The byte denoted by the character after a backslash, for the one-character escapes. -/
def unescape (e : Byte) : Option Byte :=
  if e = 34 ∨ e = 92 ∨ e = 47 then some e
  else if e = 98 then some 8
  else if e = 102 then some 12
  else if e = 110 then some 10
  else if e = 114 then some 13
  else if e = 116 then some 9
  else none

/-- The scan of a string literal after its opening quote, together with `unquote`: the
string denoted and the input after the closing quote.  The fuel is more than the number of
bytes of the input. -/
def unquoteLoop : Nat → List Byte → Option (GoString × List Byte)
  | 0, _ => none
  | _ + 1, [] => none
  | fuel + 1, c :: rest =>
    if c = 34 then some ([], rest)
    else if c = 92 then
      match rest with
      | [] => none
      | e :: rest1 =>
        if e = 117 then
          match getu4 (c :: rest) with
          | none => none
          | some rr =>
            if 0xD800 ≤ rr ∧ rr < 0xE000 then
              match getu4 (rest1.drop 4) with
              | some rr1 =>
                if rr < 0xDC00 ∧ 0xDC00 ≤ rr1 ∧ rr1 < 0xE000 then
                  (unquoteLoop fuel (rest1.drop 10)).map fun r =>
                    (EncodeRune ((rr - 0xD800) * 1024 + (rr1 - 0xDC00) + 0x10000) ++ r.1, r.2)
                else
                  (unquoteLoop fuel (rest1.drop 4)).map fun r =>
                    (EncodeRune RuneError ++ r.1, r.2)
              | none =>
                (unquoteLoop fuel (rest1.drop 4)).map fun r =>
                  (EncodeRune RuneError ++ r.1, r.2)
            else
              (unquoteLoop fuel (rest1.drop 4)).map fun r => (EncodeRune rr ++ r.1, r.2)
        else
          match unescape e with
          | none => none
          | some b => (unquoteLoop fuel rest1).map fun r => (b :: r.1, r.2)
    else if c.val < 0x20 then none
    else if c.val < 0x80 then (unquoteLoop fuel rest).map fun r => (c :: r.1, r.2)
    else
      (unquoteLoop fuel ((c :: rest).drop (DecodeRune (c :: rest)).2)).map fun r =>
        (EncodeRune (DecodeRune (c :: rest)).1 ++ r.1, r.2)

/-- A string literal at the head of the input: the string denoted and the input after it. -/
def parseString (s : List Byte) : Option (GoString × List Byte) :=
  match s with
  | [] => none
  | q :: rest => if q = 34 then unquoteLoop (rest.length + 1) rest else none

/-- The digits at the head of the input, and the input after them. -/
def spanDigits : List Byte → List Nat × List Byte
  | [] => ([], [])
  | b :: rest =>
    if 48 ≤ b.val ∧ b.val ≤ 57 then ((b.val - 48) :: (spanDigits rest).1, (spanDigits rest).2)
    else ([], b :: rest)

/-- An element of a JSON array that is decoded into a byte slice: `null` (the byte stays 0)
or a number that `strconv.ParseUint` reads and that fits a `uint8`. -/
def parseElement (s : List Byte) : Option (Byte × List Byte) :=
  if s.take 4 = [110, 117, 108, 108] then some (0, s.drop 4)
  else
    match spanDigits s with
    | ([], _) => none
    | (d :: ds, rest) =>
      if d = 0 ∧ ds ≠ [] then none
      else if 255 < (d :: ds).foldl (fun n x => n * 10 + x) 0 then none
      else
        match rest with
        | c :: _ =>
          if c = 46 ∨ c = 101 ∨ c = 69 then none
          else some (byte ((d :: ds).foldl (fun n x => n * 10 + x) 0), rest)
        | [] => some (byte ((d :: ds).foldl (fun n x => n * 10 + x) 0), rest)

/-- The elements of a JSON array after the first, up to the closing bracket. -/
def parseElements : Nat → List Byte → Option (List Byte × List Byte)
  | 0, _ => none
  | fuel + 1, s =>
    match parseElement s with
    | none => none
    | some (b, rest) =>
      match skipSpace rest with
      | [] => none
      | c :: rest1 =>
        if c = 93 then some ([b], rest1)
        else if c = 44 then
          (parseElements fuel (skipSpace rest1)).map fun r => (b :: r.1, r.2)
        else none

/-- A JSON value decoded into a `[]byte`: a string literal, decoded from base64; `null`;
or an array of numbers. -/
def parseValue (s : List Byte) : Option (Bytes × List Byte) :=
  match s with
  | [] => none
  | c :: rest =>
    if c = 34 then
      match parseString s with
      | none => none
      | some (str, rest1) => (base64Decode str).map fun v => (v, rest1)
    else if s.take 4 = [110, 117, 108, 108] then some ([], s.drop 4)
    else if c = 91 then
      match skipSpace rest with
      | [] => none
      | c1 :: rest1 =>
        if c1 = 93 then some ([], rest1)
        else parseElements (rest.length + 1) (c1 :: rest1)
    else none

/-- The members of a JSON object, from the first key up to the closing brace, stored one
after the other into the map (a later member with the same key replaces the earlier). -/
def parseMembers : Nat → List Byte → ByteMap → Option (ByteMap × List Byte)
  | 0, _, _ => none
  | fuel + 1, s, m =>
    match parseString s with
    | none => none
    | some (key, rest) =>
      match skipSpace rest with
      | [] => none
      | colon :: rest1 =>
        if colon = 58 then
          match parseValue (skipSpace rest1) with
          | none => none
          | some (v, rest2) =>
            match skipSpace rest2 with
            | [] => none
            | c :: rest3 =>
              if c = 125 then some (m.insert key v, rest3)
              else if c = 44 then parseMembers fuel (skipSpace rest3) (m.insert key v)
              else none
        else none

/-- The error of a failed `json.Unmarshal`, whatever its kind and message. -/
def decodeError : GoError := .other "json: the input does not decode"

/-- The function `json.Unmarshal` into a `nil` variable of type `map[string][]byte`: the
map decoded, or an error (a `SyntaxError`, an `UnmarshalTypeError` or a
`base64.CorruptInputError`, all rendered as `decodeError`).  The input is one value between
white space: `null`, which leaves the map empty, or an object whose values are strings in
base64, `null` or arrays of numbers below 256; the library reports an error on every other
input, after scanning all of it, and so does this function, at the first offending byte. -/
def jsonUnmarshal (data : Bytes) : Except GoError ByteMap :=
  match skipSpace data with
  | [] => .error decodeError
  | c :: rest =>
    if (c :: rest).take 4 = [110, 117, 108, 108] then
      if skipSpace ((c :: rest).drop 4) = [] then .ok ∅
      else .error decodeError
    else if c = 123 then
      match skipSpace rest with
      | [] => .error decodeError
      | c1 :: rest1 =>
        if c1 = 125 then
          if skipSpace rest1 = [] then .ok ∅
          else .error decodeError
        else
          match parseMembers (rest.length + 1) (c1 :: rest1) ∅ with
          | none => .error decodeError
          | some (m, rest2) =>
            if skipSpace rest2 = [] then .ok m
            else .error decodeError
    else .error decodeError

/-! ### Predicates used to state the properties of the library functions -/

/-- The shape of a well-formed rune of more than one byte. -/
inductive RuneAt : List Byte → Nat → Nat → Prop where
  | two (s0 s1 : Byte) (rest : List Byte)
      (h0 : 0xC2 ≤ s0.val ∧ s0.val < 0xE0) (h1 : 0x80 ≤ s1.val ∧ s1.val ≤ 0xBF) :
      RuneAt (s0 :: s1 :: rest) (s0.val % 32 * 64 + s1.val % 64) 2
  | three (s0 s1 s2 : Byte) (rest : List Byte)
      (h0 : 0xE0 ≤ s0.val ∧ s0.val < 0xF0)
      (h1 : acceptLo s0 ≤ s1.val ∧ s1.val ≤ acceptHi s0)
      (h2 : 0x80 ≤ s2.val ∧ s2.val ≤ 0xBF) :
      RuneAt (s0 :: s1 :: s2 :: rest) (s0.val % 16 * 4096 + s1.val % 64 * 64 + s2.val % 64) 3
  | four (s0 s1 s2 s3 : Byte) (rest : List Byte)
      (h0 : 0xF0 ≤ s0.val ∧ s0.val ≤ 0xF4)
      (h1 : acceptLo s0 ≤ s1.val ∧ s1.val ≤ acceptHi s0)
      (h2 : 0x80 ≤ s2.val ∧ s2.val ≤ 0xBF) (h3 : 0x80 ≤ s3.val ∧ s3.val ≤ 0xBF) :
      RuneAt (s0 :: s1 :: s2 :: s3 :: rest)
        (s0.val % 8 * 262144 + s1.val % 64 * 4096 + s2.val % 64 * 64 + s3.val % 64) 4

/-- A byte that a string literal holds as it is: printable ASCII other than the quote and
the backslash. -/
def Plain (b : Byte) : Prop := 0x20 ≤ b.val ∧ b.val < 0x80 ∧ b ≠ 34 ∧ b ≠ 92

/-- The package `encoding/json` of the Go library. -/
def goJSON : JSON := { Marshal := jsonMarshal, Unmarshal := jsonUnmarshal }

/-! ## The host program (`main.go`, `commands.go`) -/

/-- What the outside supplies to a run of the host program: the JSON library, the clock
reading when `main` calls `LoadPokedex`, whether `readline.NewEx` succeeds, the function
`strings.Fields (strings.ToLower (strings.TrimSpace line))`, and the effect on the store of
the commands that talk to the network or print (all but `exit`). -/
structure World where
  json : JSON
  loadTime : Int
  readlineOk : Bool
  fields : String → List String
  exec : List String → Cache → Cache

/-- An input of the host program: `l.Readline()` returns a line, `l.Readline()` returns
an error (end of input, or an interrupt that the line reader reports), or the process
receives `os.Interrupt` or `SIGTERM`. -/
inductive Event where
  | line (text : String)
  | readError
  | signal
deriving DecidableEq, Repr

/-- Where the process stands: running, ended by the return of `main`, or ended by
`os.Exit` with a code. -/
inductive Status where
  | running
  | returned
  | exited (code : Nat)
deriving DecidableEq, Repr

/-- The state of the host process: the cache, the file system, the number of calls of
`SavePokedex` so far, and the status. -/
structure Host where
  cache : Cache
  fs : FileSystem
  saves : Nat
  status : Status

/-- The variable `pokedexFile`. -/
def pokedexFile : String := "./pokedex.json"

/-- The keys of the map `commands` built by `init`. -/
def commandNames : List String :=
  ["help", "exit", "map", "mapb", "explore", "catch", "inspect", "pokedex"]

/-- The function `saveAndExit`: `SavePokedex`, a message on either outcome, `os.Exit(0)`. -/
def saveAndExit (W : World) (h : Host) (file : String) : Host :=
  { h with
    fs := (h.cache.SavePokedex W.json h.fs file).1
    saves := h.saves + 1
    status := Status.exited 0 }

/-- The function `CommandExit`: `onExitCallback` is the closure registered by `init`, which
calls `saveAndExit pokedexFile`. -/
def CommandExit (W : World) (h : Host) : Host :=
  saveAndExit W h pokedexFile

/-- The goroutine of `main` that waits on the signal channel: `SavePokedex`, a message on
either outcome, `os.Exit(1)`. -/
def signalHandler (W : World) (h : Host) : Host :=
  { h with
    fs := (h.cache.SavePokedex W.json h.fs pokedexFile).1
    saves := h.saves + 1
    status := Status.exited 1 }

/-- One step of the running program on an input: the signal handler, or one round of the
loop of `main`.  A process that has ended takes no step. -/
def Host.step (W : World) (h : Host) (ev : Event) : Host :=
  match h.status with
  | Status.running =>
    match ev with
    | Event.signal => signalHandler W h
    | Event.readError => { h with status := Status.returned }
    | Event.line text =>
      match W.fields text with
      | [] => h
      | commandName :: args =>
        if commandName ∈ commandNames then
          if commandName = "exit" then CommandExit W h
          else { h with cache := W.exec (commandName :: args) h.cache }
        else h
  | _ => h

/-- The function `main` on a sequence of inputs, from the store that `init` creates
(`NewCache(5*time.Minute, 30*time.Minute)`). -/
def main (W : World) (fs : FileSystem) (events : List Event) : Host :=
  match (NewCache (5 * 60 * 1000000000) (30 * 60 * 1000000000)).LoadPokedex W.json
      W.loadTime fs pokedexFile with
  | (c, some _) => { cache := c, fs := fs, saves := 0, status := Status.returned }
  | (c, none) =>
    if W.readlineOk then
      events.foldl (Host.step W) { cache := c, fs := fs, saves := 0, status := Status.running }
    else { cache := c, fs := fs, saves := 0, status := Status.returned }

/-- A file system with no file and no fault. -/
def emptyFS : FileSystem := { content := fun _ => none, fault := fun _ => none }

/-- A file system whose only file is `path`, with content `data`, and with no fault. -/
def singleFileFS (path : String) (data : Bytes) : FileSystem :=
  { content := fun p => if p = path then some data else none, fault := fun _ => none }

/-- A sample world: the Go JSON library, a working line reader, lines split at blanks,
commands without effect on the store. -/
def sampleWorld : World :=
  { json := goJSON
    loadTime := 0
    readlineOk := true
    fields := fun text => (text.toLower.split fun ch => ch = ' ').filter fun w => w ≠ ""
    exec := fun _ c => c }

/-! ## Sample stores -/

/-- The store of the specification's example: `"caught:pikachu"`, `"caught:eevee"` and
`"location:route1"`, with the values `[1, 2, 3]`, `[]` and `[255]`. -/
def exampleStore : Cache :=
  (((NewCache 0 0).Set 0
      [99, 97, 117, 103, 104, 116, 58, 112, 105, 107, 97, 99, 104, 117] [1, 2, 3] [0]).Set 1
      [99, 97, 117, 103, 104, 116, 58, 101, 101, 118, 101, 101] [] [5]).Set 2
      [108, 111, 99, 97, 116, 105, 111, 110, 58, 114, 111, 117, 116, 101, 49] [255] []

/-- A store with one entry whose key starts with `"caught:"` and is not valid UTF-8:
the key is `"caught:\xff"`, the value `[1]`. -/
def badKeyStore : Cache :=
  (NewCache 0 0).Set 0 [99, 97, 117, 103, 104, 116, 58, 255] [1] [0]

/-! ## Lemmas on the store -/

/-- The long expiration is a positive duration that fits the 64 bits of a
`time.Duration`. -/
theorem longExpiration_fits : 0 < longExpiration ∧ longExpiration < 2 ^ 63 := by
  decide


theorem get_of_lookup_none {c : Cache} {now : Int} {k : GoString}
    (h : c.cache.lookup k = none) : c.Get now k = ([], false) := by
  simp [Cache.Get, h]

theorem get_of_lookup_some {c : Cache} {now : Int} {k : GoString} {e : cacheEntry}
    (h : c.cache.lookup k = some e) :
    c.Get now k = if Live now e then (e.val, true) else ([], false) := by
  unfold Cache.Get Live timeSince
  rw [h]
  by_cases h0 : e.expireAfter = 0
  · simp [h0]
  · by_cases h1 : now - e.createdAt ≤ e.expireAfter
    · have : ¬ (e.expireAfter < now - e.createdAt) := by omega
      simp [h0, h1, this]
    · have : e.expireAfter < now - e.createdAt := by omega
      simp [h0, h1, this]

theorem lookup_set_self (c : Cache) (now : Int) (k : GoString) (v : Bytes)
    (ttl : List Int) :
    (c.Set now k v ttl).cache.lookup k
      = some { createdAt := now, val := v,
               expireAfter := c.expiration ttl } := by
  simp [Cache.Set]

theorem lookup_set_ne (c : Cache) (now : Int) {k k' : GoString} (v : Bytes)
    (ttl : List Int) (h : k' ≠ k) :
    (c.Set now k v ttl).cache.lookup k' = c.cache.lookup k' := by
  simp [Cache.Set, AList.lookup_insert_ne h]

/-- What the deleting loop of the sweep leaves under a key. -/
theorem lookup_sweep_fold (now : Int) (k : GoString)
    (l : List (Sigma fun _ : GoString => cacheEntry)) (m : EntryMap) :
    (l.foldl
      (fun m kv =>
        if kv.2.expireAfter ≠ 0 ∧ timeSince now kv.2.createdAt > kv.2.expireAfter then
          m.erase kv.1
        else m) m).lookup k
      = if ∃ kv ∈ l, kv.1 = k ∧ ¬ Live now kv.2 then none else m.lookup k := by
  induction l generalizing m with
  | nil => simp
  | cons kv rest ih =>
    rw [List.foldl_cons, ih]
    have hexp : (kv.2.expireAfter ≠ 0 ∧ timeSince now kv.2.createdAt > kv.2.expireAfter)
        ↔ ¬ Live now kv.2 := by
      unfold Live timeSince; constructor
      · rintro ⟨h0, h1⟩; intro h; rcases h with h | h
        · exact h0 h
        · omega
      · intro h; constructor
        · intro h0; exact h (Or.inl h0)
        · by_contra h1; exact h (Or.inr (by omega))
    by_cases hrest : ∃ kv ∈ rest, kv.1 = k ∧ ¬ Live now kv.2
    · have : ∃ kv' ∈ kv :: rest, kv'.1 = k ∧ ¬ Live now kv'.2 := by
        obtain ⟨x, hx, hx'⟩ := hrest
        exact ⟨x, List.mem_cons_of_mem _ hx, hx'⟩
      rw [if_pos hrest, if_pos this]
    · rw [if_neg hrest]
      by_cases hkv : kv.1 = k ∧ ¬ Live now kv.2
      · have : ∃ kv' ∈ kv :: rest, kv'.1 = k ∧ ¬ Live now kv'.2 :=
          ⟨kv, List.mem_cons_self _ _, hkv⟩
        rw [if_pos this, if_pos (hexp.mpr hkv.2), ← hkv.1, AList.lookup_erase]
      · have : ¬ ∃ kv' ∈ kv :: rest, kv'.1 = k ∧ ¬ Live now kv'.2 := by
          rintro ⟨x, hx, hx'⟩
          rcases List.mem_cons.mp hx with rfl | hx
          · exact hkv hx'
          · exact hrest ⟨x, hx, hx'⟩
        rw [if_neg this]
        by_cases hl : Live now kv.2
        · rw [if_neg (fun h => (hexp.mp h) hl)]
        · rw [if_pos (hexp.mpr hl)]
          have hne : k ≠ kv.1 := fun h => hkv ⟨h.symm, hl⟩
          rw [AList.lookup_erase_ne hne]

/-- One round of the sweep keeps under each key the entry it held if that entry is live,
and nothing otherwise. -/
theorem lookup_cleanupPass (c : Cache) (now : Int) (k : GoString) :
    (c.cleanupPass now).cache.lookup k
      = (c.cache.lookup k).filter (fun e => decide (Live now e)) := by
  unfold Cache.cleanupPass
  simp only
  rw [lookup_sweep_fold]
  cases hlk : c.cache.lookup k with
  | none =>
    have : ¬ ∃ kv ∈ c.cache.entries, kv.1 = k ∧ ¬ Live now kv.2 := by
      rintro ⟨⟨k', e⟩, hmem, hk, _⟩
      simp only at hk
      subst hk
      have : e ∈ c.cache.lookup k' := AList.mem_lookup_iff.mpr hmem
      rw [hlk] at this
      exact absurd this (by simp)
    rw [if_neg this]; simp
  | some e =>
    have hmem : (⟨k, e⟩ : Sigma fun _ : GoString => cacheEntry) ∈ c.cache.entries :=
      AList.mem_lookup_iff.mp (by rw [hlk]; exact rfl)
    by_cases hl : Live now e
    · have : ¬ ∃ kv ∈ c.cache.entries, kv.1 = k ∧ ¬ Live now kv.2 := by
        rintro ⟨⟨k', e'⟩, hmem', hk, hnl⟩
        simp only at hk hnl
        subst hk
        have h1 : e' ∈ c.cache.lookup k' := AList.mem_lookup_iff.mpr hmem'
        rw [hlk] at h1
        have : e' = e := by simpa using h1.symm
        exact hnl (this ▸ hl)
      rw [if_neg this]; simp [Option.filter, hl]
    · have : ∃ kv ∈ c.cache.entries, kv.1 = k ∧ ¬ Live now kv.2 := ⟨⟨k, e⟩, hmem, rfl, hl⟩
      rw [if_pos this]; simp [Option.filter, hl]

/-- What the inserting loop of `LoadPokedex` leaves under a key. -/
theorem lookup_insert_fold (now : Int) (k : GoString)
    (l : List (Sigma fun _ : GoString => Bytes)) (m : EntryMap)
    (hk : ∀ kv ∈ l, kv.1 ≠ k) :
    (l.foldl
      (fun m kv => m.insert kv.1
        { createdAt := now, val := kv.2, expireAfter := longExpiration }) m).lookup k
      = m.lookup k := by
  induction l generalizing m with
  | nil => rfl
  | cons kv rest ih =>
    rw [List.foldl_cons, ih _ (fun x hx => hk x (List.mem_cons_of_mem _ hx))]
    exact AList.lookup_insert_ne (fun h => hk kv (List.mem_cons_self _ _) h.symm)

theorem lookup_insertLoaded_of_not_mem (c : Cache) (now : Int) (m : ByteMap) (k : GoString)
    (hk : k ∉ m) : (c.insertLoaded now m).cache.lookup k = c.cache.lookup k := by
  unfold Cache.insertLoaded
  simp only
  apply lookup_insert_fold
  intro kv hkv heq
  apply hk
  rw [← heq]
  exact AList.mem_keys.mpr (List.mem_keys_of_mem hkv)

/-- A step that does not write `k` keeps the entry of `k`, or, when it is a sweep, may
remove it if it is not live. -/
theorem lookup_step_of_not_writes (c : Cache) (now : Int) (o : Op) (k : GoString)
    (h : ¬ o.writes k) :
    (c.step now o).cache.lookup k = c.cache.lookup k ∨
      (o = Op.sweep ∧ (c.step now o).cache.lookup k
        = (c.cache.lookup k).filter (fun e => decide (Live now e))) := by
  cases o with
  | set key value ttl =>
    left
    exact lookup_set_ne c now value ttl (fun hk => h hk.symm)
  | sweep =>
    right
    exact ⟨rfl, lookup_cleanupPass c now k⟩
  | load m =>
    left
    exact lookup_insertLoaded_of_not_mem c now m k h

/-- A history that does not write `k` leaves the entry of `k` in place or removes it. -/
theorem lookup_run_of_not_writes (k : GoString) (e : cacheEntry) (ops : List (Int × Op))
    (c : Cache) (hc : c.cache.lookup k = some e) (hops : ∀ p ∈ ops, ¬ p.2.writes k) :
    (c.run ops).cache.lookup k = some e ∨ (c.run ops).cache.lookup k = none := by
  suffices h : ∀ c : Cache, (c.cache.lookup k = some e ∨ c.cache.lookup k = none) →
      ((c.run ops).cache.lookup k = some e ∨ (c.run ops).cache.lookup k = none) from
    h c (Or.inl hc)
  induction ops with
  | nil => intro c h; exact h
  | cons p rest ih =>
    intro c h
    obtain ⟨t, o⟩ := p
    have hrest : ∀ p ∈ rest, ¬ p.2.writes k := fun q hq => hops q (List.mem_cons_of_mem _ hq)
    have ho : ¬ o.writes k := hops (t, o) (List.mem_cons_self _ _)
    unfold Cache.run
    apply ih hrest
    rcases lookup_step_of_not_writes c t o k ho with h1 | ⟨_, h1⟩
    · rw [h1]; exact h
    · rw [h1]
      rcases h with h | h
      · rw [h]
        by_cases hl : Live t e
        · left; simp [Option.filter, hl]
        · right; simp [Option.filter, hl]
      · right; rw [h]; rfl

/-- A history that does not write `k` keeps the entry of `k` if the entry is live whenever
an operation of the history runs. -/
theorem lookup_run_of_live (k : GoString) (e : cacheEntry) (ops : List (Int × Op))
    (c : Cache) (hc : c.cache.lookup k = some e) (hops : ∀ p ∈ ops, ¬ p.2.writes k)
    (hlive : ∀ p ∈ ops, Live p.1 e) :
    (c.run ops).cache.lookup k = some e := by
  induction ops generalizing c with
  | nil => exact hc
  | cons p rest ih =>
    obtain ⟨t, o⟩ := p
    have ho : ¬ o.writes k := hops (t, o) (List.mem_cons_self _ _)
    have hl : Live t e := hlive (t, o) (List.mem_cons_self _ _)
    unfold Cache.run
    apply ih
    · rcases lookup_step_of_not_writes c t o k ho with h1 | ⟨_, h1⟩
      · rw [h1]; exact hc
      · rw [h1, hc]; simp [Option.filter, hl]
    · exact fun q hq => hops q (List.mem_cons_of_mem _ hq)
    · exact fun q hq => hlive q (List.mem_cons_of_mem _ hq)

theorem iterateLoop_recording {σ : Type} (f : σ → GoString → Bytes → σ × Bool)
    (l : List (Sigma fun _ : GoString => cacheEntry)) (s : σ) (log : List Call) :
    iterateLoop (recording f) l (s, log) = (iterateLoop f l s, log ++ visits f l s) := by
  induction l generalizing s log with
  | nil => simp [iterateLoop, visits]
  | cons kv rest ih =>
    unfold iterateLoop visits
    by_cases h : (f s kv.1 kv.2.val).2 = true
    · simp [recording, h, ih]
    · simp [recording, h]

theorem iterateLog_eq_visits {σ : Type} (c : Cache) (f : σ → GoString → Bytes → σ × Bool)
    (s : σ) : c.iterateLog f s = visits f c.cache.entries s := by
  simp [Cache.iterateLog, Cache.Iterate, iterateLoop_recording]

/-- The calls are made on an initial segment of the entries, in their order. -/
theorem visits_isPrefix {σ : Type} (f : σ → GoString → Bytes → σ × Bool)
    (l : List (Sigma fun _ : GoString => cacheEntry)) (s : σ) :
    (visits f l s).map (fun x => (x.key, x.value)) <+: l.map (fun kv => (kv.1, kv.2.val)) := by
  induction l generalizing s with
  | nil => simp [visits]
  | cons kv rest ih =>
    unfold visits
    by_cases h : (f s kv.1 kv.2.val).2 = true
    · simp only [h, if_true, List.map_cons]
      exact (List.prefix_cons_inj _).mpr (ih _)
    · have hf : (f s kv.1 kv.2.val).2 = false := by simpa using h
      simp only [hf, List.map_cons, List.map_nil, Bool.false_eq_true, if_false]
      exact ⟨List.map (fun kv : Sigma fun _ : GoString => cacheEntry => (kv.1, kv.2.val)) rest,
        rfl⟩

/-- If every call answered "continue", every entry was visited. -/
theorem visits_all {σ : Type} (f : σ → GoString → Bytes → σ × Bool)
    (l : List (Sigma fun _ : GoString => cacheEntry)) (s : σ)
    (h : ∀ call ∈ visits f l s, call.goOn = true) :
    (visits f l s).map (fun x => (x.key, x.value)) = l.map (fun kv => (kv.1, kv.2.val)) := by
  induction l generalizing s with
  | nil => simp [visits]
  | cons kv rest ih =>
    unfold visits at h ⊢
    have h1 : (f s kv.1 kv.2.val).2 = true := h _ (List.mem_cons_self _ _)
    simp only [h1, if_true, List.map_cons] at h ⊢
    rw [ih _ (fun call hc => h call (List.mem_cons_of_mem _ hc))]

/-- A call that answered "stop" is the last call. -/
theorem visits_stop {σ : Type} (f : σ → GoString → Bytes → σ × Bool)
    (l : List (Sigma fun _ : GoString => cacheEntry)) (s : σ) (i : Nat)
    (hi : i < (visits f l s).length) (hstop : ((visits f l s).get ⟨i, hi⟩).goOn = false) :
    i + 1 = (visits f l s).length := by
  induction l generalizing s i with
  | nil => simp [visits] at hi
  | cons kv rest ih =>
    by_cases h : (f s kv.1 kv.2.val).2 = true
    · have heq : visits f (kv :: rest) s
          = ⟨kv.1, kv.2.val, true⟩ :: visits f rest (f s kv.1 kv.2.val).1 := by
        simp [visits, h]
      revert hi hstop
      rw [heq]
      intro hi hstop
      cases i with
      | zero => simp at hstop
      | succ j =>
        simp only [List.length_cons] at hi ⊢
        have := ih (f s kv.1 kv.2.val).1 j (by omega) (by simpa using hstop)
        omega
    · have heq : visits f (kv :: rest) s = [⟨kv.1, kv.2.val, false⟩] := by
        simp [visits, h]
      revert hi hstop
      rw [heq]
      intro hi _
      simp only [List.length_singleton] at hi ⊢
      omega

/-- The rounds of `cleanupExpiredEntries` are the history of its sweeps. -/
theorem cleanupExpiredEntries_eq_run (c : Cache) (wakeups : List Int) :
    c.cleanupExpiredEntries wakeups = c.run (wakeups.map fun t => (t, Op.sweep)) := by
  induction wakeups generalizing c with
  | nil => rfl
  | cons t rest ih =>
    simp only [Cache.cleanupExpiredEntries, List.foldl_cons, List.map_cons, Cache.run,
      Cache.step]
    exact ih (c.cleanupPass t)

/-- The visit runs to the end of the entries unless its last call answered "stop". -/
theorem visits_complete_or_stopped {σ : Type} (f : σ → GoString → Bytes → σ × Bool)
    (l : List (Sigma fun _ : GoString => cacheEntry)) (s : σ) :
    (visits f l s).length = l.length ∨
      ∃ call, (visits f l s).getLast? = some call ∧ call.goOn = false := by
  induction l generalizing s with
  | nil => left; rfl
  | cons kv rest ih =>
    by_cases h : (f s kv.1 kv.2.val).2 = true
    · have heq : visits f (kv :: rest) s
          = ⟨kv.1, kv.2.val, true⟩ :: visits f rest (f s kv.1 kv.2.val).1 := by
        simp [visits, h]
      rw [heq]
      rcases ih (f s kv.1 kv.2.val).1 with h1 | ⟨call, h1, h2⟩
      · left; simp [h1]
      · right
        refine ⟨call, ?_, h2⟩
        cases hv : visits f rest (f s kv.1 kv.2.val).1 with
        | nil => rw [hv] at h1; simp at h1
        | cons x xs =>
          rw [hv] at h1
          rw [List.getLast?_cons_cons]
          exact h1
    · have hfalse : (f s kv.1 kv.2.val).2 = false := by simpa using h
      have heq : visits f (kv :: rest) s = [⟨kv.1, kv.2.val, false⟩] := by
        simp [visits, hfalse]
      rw [heq]
      right
      exact ⟨⟨kv.1, kv.2.val, false⟩, rfl, rfl⟩

/-- The state in which the loop of `Iterate` leaves the visitor is the state after its
calls, one after the other. -/
theorem iterateLoop_eq_foldl_visits {σ : Type} (f : σ → GoString → Bytes → σ × Bool)
    (l : List (Sigma fun _ : GoString => cacheEntry)) (s : σ) :
    iterateLoop f l s
      = (visits f l s).foldl (fun st call => (f st call.key call.value).1) s := by
  induction l generalizing s with
  | nil => rfl
  | cons kv rest ih =>
    unfold iterateLoop visits
    by_cases h : (f s kv.1 kv.2.val).2 = true
    · simp only [h, Bool.not_true, Bool.false_eq_true, if_false, if_true, List.foldl_cons]
      exact ih _
    · have hfalse : (f s kv.1 kv.2.val).2 = false := by simpa using h
      simp [hfalse]

/-- The answer logged for a call is the answer of the visitor in the state that the
earlier calls left. -/
theorem visits_answer {σ : Type} (f : σ → GoString → Bytes → σ × Bool)
    (l : List (Sigma fun _ : GoString => cacheEntry)) (s : σ) (n : Nat)
    (hn : n < (visits f l s).length) :
    ((visits f l s).get ⟨n, hn⟩).goOn
      = (f (((visits f l s).take n).foldl (fun st call => (f st call.key call.value).1) s)
          ((visits f l s).get ⟨n, hn⟩).key ((visits f l s).get ⟨n, hn⟩).value).2 := by
  induction l generalizing s n with
  | nil => simp [visits] at hn
  | cons kv rest ih =>
    by_cases h : (f s kv.1 kv.2.val).2 = true
    · have heq : visits f (kv :: rest) s
          = ⟨kv.1, kv.2.val, true⟩ :: visits f rest (f s kv.1 kv.2.val).1 := by
        simp [visits, h]
      revert hn
      rw [heq]
      intro hn
      cases n with
      | zero => simp [h]
      | succ m =>
        simp only [List.length_cons] at hn
        have := ih (f s kv.1 kv.2.val).1 m (by omega)
        simpa using this
    · have hfalse : (f s kv.1 kv.2.val).2 = false := by simpa using h
      have heq : visits f (kv :: rest) s = [⟨kv.1, kv.2.val, false⟩] := by
        simp [visits, hfalse]
      revert hn
      rw [heq]
      intro hn
      have hn0 : n = 0 := by simp at hn; omega
      subst hn0
      simp [hfalse]

/-! ## Lemmas on the library functions -/

theorem byte_val (n : Nat) : (byte n).val = n % 256 := rfl

theorem byte_of_val (b : Byte) : byte b.val = b := by
  apply Fin.ext
  rw [byte_val]
  omega

theorem byte_eq_of_val {n : Nat} {b : Byte} (h : n = b.val) : byte n = b := by
  rw [h, byte_of_val]

/-- The decoding table inverts the alphabet. -/
theorem b64Val_b64Char : ∀ n : Fin 64, b64Val (b64Char n.val) = some n.val := by
  decide

/-- The characters of the alphabet are printable ASCII, and none is a quote, a backslash
or the padding character. -/
theorem b64Char_plain : ∀ n : Fin 64,
    0x20 ≤ (b64Char n.val).val ∧ (b64Char n.val).val < 0x80 ∧ b64Char n.val ≠ 34 ∧
      b64Char n.val ≠ 92 ∧ b64Char n.val ≠ 61 := by
  decide

theorem b64Val_b64Char_of_lt {n : Nat} (h : n < 64) : b64Val (b64Char n) = some n :=
  b64Val_b64Char ⟨n, h⟩

theorem b64Val_pad : b64Val 61 = none := by decide

/-- Decoding the quanta of an encoding gives the bytes back. -/
theorem decodeQuanta_base64Encode (v : List Byte) : decodeQuanta (base64Encode v) = some v := by
  induction v using base64Encode.induct with
  | case1 a b c rest ih =>
    have ha := a.isLt
    have hb := b.isLt
    have hc := c.isLt
    rw [base64Encode, decodeQuanta]
    rw [b64Val_b64Char_of_lt (by omega), b64Val_b64Char_of_lt (by omega),
      b64Val_b64Char_of_lt (by omega), b64Val_b64Char_of_lt (by omega)]
    simp only [ih, Option.map_some']
    congr 2
    · exact byte_eq_of_val (by omega)
    · congr 1
      · exact byte_eq_of_val (by omega)
      · congr 1
        exact byte_eq_of_val (by omega)
  | case2 a b =>
    have ha := a.isLt
    have hb := b.isLt
    rw [base64Encode, decodeQuanta]
    rw [b64Val_b64Char_of_lt (by omega), b64Val_b64Char_of_lt (by omega),
      b64Val_b64Char_of_lt (by omega), b64Val_pad]
    simp only [and_self, if_true]
    congr 2
    · exact byte_eq_of_val (by omega)
    · congr 1
      exact byte_eq_of_val (by omega)
  | case3 a =>
    have ha := a.isLt
    rw [base64Encode, decodeQuanta]
    rw [b64Val_b64Char_of_lt (by omega), b64Val_b64Char_of_lt (by omega), b64Val_pad]
    simp only [and_self, if_true]
    congr 2
    exact byte_eq_of_val (by omega)
  | case4 => rfl

theorem EncodeRune_two {r : Nat} (h1 : 0x80 ≤ r) (h2 : r < 0x800) :
    EncodeRune r = [byte (0xC0 + r / 64), byte (0x80 + r % 64)] := by
  have : ¬ r < 0x80 := by omega
  simp [EncodeRune, this, h2]

theorem EncodeRune_three {r : Nat} (h1 : 0x800 ≤ r) (h2 : r < 0x10000)
    (h3 : r < 0xD800 ∨ 0xDFFF < r) :
    EncodeRune r
      = [byte (0xE0 + r / 4096), byte (0x80 + r / 64 % 64), byte (0x80 + r % 64)] := by
  have a1 : ¬ r < 0x80 := by omega
  have a2 : ¬ r < 0x800 := by omega
  have a3 : ¬ (0x10FFFF < r ∨ (0xD800 ≤ r ∧ r ≤ 0xDFFF)) := by omega
  simp only [EncodeRune, a1, a2, a3, h2, if_true, if_false]

theorem EncodeRune_four {r : Nat} (h1 : 0x10000 ≤ r) (h2 : r ≤ 0x10FFFF) :
    EncodeRune r
      = [byte (0xF0 + r / 262144), byte (0x80 + r / 4096 % 64), byte (0x80 + r / 64 % 64),
          byte (0x80 + r % 64)] := by
  have a1 : ¬ r < 0x80 := by omega
  have a2 : ¬ r < 0x800 := by omega
  have a3 : ¬ (0x10FFFF < r ∨ (0xD800 ≤ r ∧ r ≤ 0xDFFF)) := by omega
  have a4 : ¬ r < 0x10000 := by omega
  simp only [EncodeRune, a1, a2, a3, a4, if_false]

theorem acceptLo_bounds (s0 : Byte) : 0x80 ≤ acceptLo s0 ∧ acceptLo s0 ≤ 0xA0 := by
  unfold acceptLo; split <;> [skip; split] <;> omega

theorem acceptHi_bounds (s0 : Byte) : 0x8F ≤ acceptHi s0 ∧ acceptHi s0 ≤ 0xBF := by
  unfold acceptHi; split <;> [skip; split] <;> omega

/-- On a byte that is not ASCII, `DecodeRune` reports an error of width 1 or finds a
well-formed rune of two, three or four bytes. -/
theorem DecodeRune_cases (b : Byte) (rest : List Byte) (hb : 0x80 ≤ b.val) :
    DecodeRune (b :: rest) = (RuneError, 1) ∨
      RuneAt (b :: rest) (DecodeRune (b :: rest)).1 (DecodeRune (b :: rest)).2 := by
  have hnot : ¬ b.val < 0x80 := by omega
  have hlo := acceptLo_bounds b
  have hhi := acceptHi_bounds b
  unfold DecodeRune
  simp only [hnot, if_false]
  by_cases hx : b.val < 0xC2 ∨ 0xF4 < b.val
  · left; simp [hx]
  · simp only [hx, if_false]
    match rest with
    | [] => left; rfl
    | s1 :: t =>
      simp only
      by_cases h1 : s1.val < acceptLo b ∨ acceptHi b < s1.val
      · left; simp only [h1, if_true]
      · simp only [h1, if_false]
        by_cases h2 : b.val < 0xE0
        · right
          simp only [h2, if_true]
          exact RuneAt.two b s1 t (by omega) (by omega)
        · simp only [h2, if_false]
          match t with
          | [] => left; rfl
          | s2 :: t =>
            simp only
            by_cases h3 : s2.val < 0x80 ∨ 0xBF < s2.val
            · left; simp only [h3, if_true]
            · simp only [h3, if_false]
              by_cases h4 : b.val < 0xF0
              · right
                simp only [h4, if_true]
                exact RuneAt.three b s1 s2 t (by omega) (by omega) (by omega)
              · simp only [h4, if_false]
                match t with
                | [] => left; rfl
                | s3 :: t =>
                  simp only
                  by_cases h5 : s3.val < 0x80 ∨ 0xBF < s3.val
                  · left; simp only [h5, if_true]
                  · right
                    simp only [h5, if_false]
                    exact RuneAt.four b s1 s2 s3 t (by omega) (by omega) (by omega) (by omega)

/-- A well-formed rune is decoded as such, whatever follows it. -/
theorem DecodeRune_of_RuneAt {s : List Byte} {r n : Nat} (h : RuneAt s r n) (t : List Byte) :
    DecodeRune (s.take n ++ t) = (r, n) := by
  cases h with
  | two s0 s1 rest h0 h1 =>
    have hlo := acceptLo_bounds s0
    have hhi := acceptHi_bounds s0
    have e0 : acceptLo s0 = 0x80 := by unfold acceptLo; split <;> [skip; split] <;> omega
    have e1 : acceptHi s0 = 0xBF := by unfold acceptHi; split <;> [skip; split] <;> omega
    have a1 : ¬ s0.val < 0x80 := by omega
    have a2 : ¬ (s0.val < 0xC2 ∨ 0xF4 < s0.val) := by omega
    have a3 : ¬ (s1.val < acceptLo s0 ∨ acceptHi s0 < s1.val) := by omega
    have a4 : s0.val < 0xE0 := by omega
    simp [DecodeRune, a1, a2, a3, a4]
  | three s0 s1 s2 rest h0 h1 h2 =>
    have a1 : ¬ s0.val < 0x80 := by omega
    have a2 : ¬ (s0.val < 0xC2 ∨ 0xF4 < s0.val) := by omega
    have a3 : ¬ (s1.val < acceptLo s0 ∨ acceptHi s0 < s1.val) := by omega
    have a4 : ¬ s0.val < 0xE0 := by omega
    have a5 : ¬ (s2.val < 0x80 ∨ 0xBF < s2.val) := by omega
    have a6 : s0.val < 0xF0 := by omega
    simp [DecodeRune, a1, a2, a3, a4, a5, a6]
  | four s0 s1 s2 s3 rest h0 h1 h2 h3 =>
    have a1 : ¬ s0.val < 0x80 := by omega
    have a2 : ¬ (s0.val < 0xC2 ∨ 0xF4 < s0.val) := by omega
    have a3 : ¬ (s1.val < acceptLo s0 ∨ acceptHi s0 < s1.val) := by omega
    have a4 : ¬ s0.val < 0xE0 := by omega
    have a5 : ¬ (s2.val < 0x80 ∨ 0xBF < s2.val) := by omega
    have a6 : ¬ s0.val < 0xF0 := by omega
    have a7 : ¬ (s3.val < 0x80 ∨ 0xBF < s3.val) := by omega
    simp [DecodeRune, a1, a2, a3, a4, a5, a6, a7]

/-- Encoding a well-formed rune gives its bytes back. -/
theorem EncodeRune_of_RuneAt {s : List Byte} {r n : Nat} (h : RuneAt s r n) :
    EncodeRune r = s.take n ∧ 2 ≤ n ∧ n ≤ s.length := by
  cases h with
  | two s0 s1 rest h0 h1 =>
    have b0 := s0.isLt
    have b1 := s1.isLt
    refine ⟨?_, by omega, by simp⟩
    rw [EncodeRune_two (by omega) (by omega)]
    simp only [List.take_succ_cons, List.take_zero]
    congr 1
    · exact byte_eq_of_val (by omega)
    · congr 1
      exact byte_eq_of_val (by omega)
  | three s0 s1 s2 rest h0 h1 h2 =>
    have b0 := s0.isLt
    have b1 := s1.isLt
    have b2 := s2.isLt
    have hlo : s0.val = 0xE0 → 0xA0 ≤ s1.val := by
      intro h; have := h1.1; simp [acceptLo, h] at this; exact this
    have hhi : s0.val = 0xED → s1.val ≤ 0x9F := by
      intro h; have := h1.2; simp [acceptHi, h] at this; exact this
    have hlo2 := acceptLo_bounds s0
    have hhi2 := acceptHi_bounds s0
    refine ⟨?_, by omega, by simp⟩
    rw [EncodeRune_three (by omega) (by omega) (by omega)]
    simp only [List.take_succ_cons, List.take_zero]
    congr 1
    · exact byte_eq_of_val (by omega)
    · congr 1
      · exact byte_eq_of_val (by omega)
      · congr 1
        exact byte_eq_of_val (by omega)
  | four s0 s1 s2 s3 rest h0 h1 h2 h3 =>
    have b0 := s0.isLt
    have b1 := s1.isLt
    have b2 := s2.isLt
    have b3 := s3.isLt
    have hlo : s0.val = 0xF0 → 0x90 ≤ s1.val := by
      intro h; have := h1.1; simp [acceptLo, h] at this; exact this
    have hhi : s0.val = 0xF4 → s1.val ≤ 0x8F := by
      intro h; have := h1.2; simp [acceptHi, h] at this; exact this
    have hlo2 := acceptLo_bounds s0
    have hhi2 := acceptHi_bounds s0
    refine ⟨?_, by omega, by simp⟩
    rw [EncodeRune_four (by omega) (by omega)]
    simp only [List.take_succ_cons, List.take_zero]
    congr 1
    · exact byte_eq_of_val (by omega)
    · congr 1
      · exact byte_eq_of_val (by omega)
      · congr 1
        · exact byte_eq_of_val (by omega)
        · congr 1
          exact byte_eq_of_val (by omega)

theorem hexVal_hexDigit : ∀ n : Fin 16, hexVal (hexDigit n.val) = some n.val := by decide

theorem hexVal_hexDigit_of_lt {n : Nat} (h : n < 16) : hexVal (hexDigit n) = some n :=
  hexVal_hexDigit ⟨n, h⟩

theorem unquoteLoop_quote (f : Nat) (rest : List Byte) :
    unquoteLoop (f + 1) (34 :: rest) = some ([], rest) := by
  simp [unquoteLoop]

theorem unquoteLoop_plain_cons (f : Nat) (c : Byte) (rest : List Byte) (hc : Plain c) :
    unquoteLoop (f + 1) (c :: rest)
      = (unquoteLoop f rest).map fun r => (c :: r.1, r.2) := by
  obtain ⟨h1, h2, h3, h4⟩ := hc
  have a1 : ¬ c.val < 0x20 := by omega
  simp [unquoteLoop, h3, h4, a1, h2]

theorem unquoteLoop_escape (f : Nat) (e b : Byte) (rest : List Byte) (he : e ≠ 117)
    (hb : unescape e = some b) :
    unquoteLoop (f + 1) (92 :: e :: rest)
      = (unquoteLoop f rest).map fun r => (b :: r.1, r.2) := by
  have h1 : (92 : Byte) ≠ 34 := by decide
  simp [unquoteLoop, h1, he, hb]

theorem unquoteLoop_u4 (f : Nat) (a b c d : Byte) (x y z w : Nat) (rest : List Byte)
    (ha : hexVal a = some x) (hb : hexVal b = some y) (hc : hexVal c = some z)
    (hd : hexVal d = some w)
    (hs : ¬ (0xD800 ≤ x * 4096 + y * 256 + z * 16 + w ∧ x * 4096 + y * 256 + z * 16 + w < 0xE000)) :
    unquoteLoop (f + 1) (92 :: 117 :: a :: b :: c :: d :: rest)
      = (unquoteLoop f rest).map fun r =>
          (EncodeRune (x * 4096 + y * 256 + z * 16 + w) ++ r.1, r.2) := by
  have h1 : (92 : Byte) ≠ 34 := by decide
  simp only [unquoteLoop, h1, if_false, if_true, getu4, and_self, ha, hb, hc, hd, hs,
    List.drop_succ_cons, List.drop_zero]

theorem unquoteLoop_rune (f : Nat) (c : Byte) (rest : List Byte) (hc : 0x80 ≤ c.val) :
    unquoteLoop (f + 1) (c :: rest)
      = (unquoteLoop f ((c :: rest).drop (DecodeRune (c :: rest)).2)).map fun r =>
          (EncodeRune (DecodeRune (c :: rest)).1 ++ r.1, r.2) := by
  have h1 : c ≠ 34 := by intro h; rw [h] at hc; revert hc; decide
  have h2 : c ≠ 92 := by intro h; rw [h] at hc; revert hc; decide
  have h3 : ¬ c.val < 0x20 := by omega
  have h4 : ¬ c.val < 0x80 := by omega
  simp only [unquoteLoop, h1, h2, h3, h4, if_false]

/-- Plain bytes up to a quote are read as they are. -/
theorem unquoteLoop_plain (l : List Byte) (hl : ∀ x ∈ l, Plain x) (tail : List Byte) (f : Nat)
    (hf : l.length < f) : unquoteLoop f (l ++ 34 :: tail) = some (l, tail) := by
  induction l generalizing f with
  | nil =>
    obtain ⟨g, rfl⟩ : ∃ g, f = g + 1 := ⟨f - 1, by simp at hf; omega⟩
    exact unquoteLoop_quote g tail
  | cons c rest ih =>
    obtain ⟨g, rfl⟩ : ∃ g, f = g + 1 := ⟨f - 1, by simp at hf; omega⟩
    rw [List.cons_append, unquoteLoop_plain_cons g c _ (hl c (List.mem_cons_self _ _))]
    rw [ih (fun x hx => hl x (List.mem_cons_of_mem _ hx)) g (by simp at hf; omega)]
    rfl

theorem htmlSafe_plain {b : Byte} (h : htmlSafe b = true) : Plain b := by
  simp only [htmlSafe, decide_eq_true_eq] at h
  exact ⟨h.1, h.2.1, h.2.2.1, h.2.2.2.2.2.2⟩

/-- What `unquoteLoop` makes of the escape of an ASCII byte. -/
theorem unquoteLoop_escapeByte (f : Nat) (b : Byte) (rest : List Byte) (hb : b.val < 0x80) :
    unquoteLoop (f + 1) (escapeByte b ++ rest)
      = (unquoteLoop f rest).map fun r => (b :: r.1, r.2) := by
  unfold escapeByte
  by_cases h1 : b = 92 ∨ b = 34
  · rw [if_pos h1]
    have he : b ≠ 117 := by rcases h1 with h | h <;> rw [h] <;> decide
    have hu : unescape b = some b := by rcases h1 with h | h <;> rw [h] <;> decide
    exact unquoteLoop_escape f b b rest he hu
  · rw [if_neg h1]
    by_cases h2 : b = 8
    · subst h2; exact unquoteLoop_escape f 98 8 rest (by decide) (by decide)
    · rw [if_neg h2]
      by_cases h3 : b = 12
      · subst h3; exact unquoteLoop_escape f 102 12 rest (by decide) (by decide)
      · rw [if_neg h3]
        by_cases h4 : b = 10
        · subst h4; exact unquoteLoop_escape f 110 10 rest (by decide) (by decide)
        · rw [if_neg h4]
          by_cases h5 : b = 13
          · subst h5; exact unquoteLoop_escape f 114 13 rest (by decide) (by decide)
          · rw [if_neg h5]
            by_cases h6 : b = 9
            · subst h6; exact unquoteLoop_escape f 116 9 rest (by decide) (by decide)
            · rw [if_neg h6]
              have hx : hexVal 48 = some 0 := by decide
              have e1 : hexVal (hexDigit (b.val / 16)) = some (b.val / 16) :=
                hexVal_hexDigit_of_lt (by omega)
              have e2 : hexVal (hexDigit (b.val % 16)) = some (b.val % 16) :=
                hexVal_hexDigit_of_lt (by omega)
              have := unquoteLoop_u4 f 48 48 (hexDigit (b.val / 16)) (hexDigit (b.val % 16))
                0 0 (b.val / 16) (b.val % 16) rest hx hx e1 e2 (by omega)
              simp only [List.cons_append, List.nil_append]
              rw [this]
              have hr : 0 * 4096 + 0 * 256 + b.val / 16 * 16 + b.val % 16 = b.val := by omega
              rw [hr]
              have he : EncodeRune b.val = [b] := by
                simp [EncodeRune, hb, byte_of_val]
              rw [he]
              rfl

theorem validLoop_ascii (n : Nat) (b : Byte) (rest : List Byte) (hb : b.val < 0x80) :
    validLoop (n + 1) (b :: rest) = validLoop n rest := by
  have hd : DecodeRune (b :: rest) = (b.val, 1) := by simp [DecodeRune, hb]
  have hne : ¬ b.val = RuneError := by
    unfold RuneError; omega
  simp [validLoop, hd, hne]

/-- The string literal written by `appendString` for a valid UTF-8 string is read back as
that string. -/
theorem unquoteLoop_appendStringLoop (n : Nat) (s : List Byte) (hn : s.length ≤ n)
    (hv : validLoop n s = true) (tail : List Byte) (f : Nat)
    (hf : (appendStringLoop n s ++ 34 :: tail).length < f) :
    unquoteLoop f (appendStringLoop n s ++ 34 :: tail) = some (s, tail) := by
  induction n generalizing s f with
  | zero =>
    have hs : s = [] := List.eq_nil_of_length_eq_zero (by omega)
    subst hs
    obtain ⟨g, rfl⟩ : ∃ g, f = g + 1 := ⟨f - 1, by omega⟩
    exact unquoteLoop_quote g tail
  | succ n ih =>
    obtain ⟨g, rfl⟩ : ∃ g, f = g + 1 := ⟨f - 1, by omega⟩
    match s with
    | [] => exact unquoteLoop_quote g tail
    | b :: rest =>
      have hlen : rest.length ≤ n := by simp at hn; omega
      by_cases hb : b.val < 0x80
      · rw [validLoop_ascii n b rest hb] at hv
        have hstep : appendStringLoop (n + 1) (b :: rest)
            = (if htmlSafe b then [b] else escapeByte b) ++ appendStringLoop n rest := by
          simp [appendStringLoop, hb]
        rw [hstep] at hf ⊢
        have hg : (appendStringLoop n rest ++ 34 :: tail).length < g := by
          simp only [List.length_append, List.length_cons] at hf ⊢
          have : 1 ≤ (if htmlSafe b then [b] else escapeByte b).length := by
            split
            · simp
            · unfold escapeByte; repeat' split
              all_goals simp
          omega
        by_cases hsafe : htmlSafe b = true
        · simp only [hsafe, if_true, List.cons_append, List.nil_append]
          rw [unquoteLoop_plain_cons g b _ (htmlSafe_plain hsafe), ih rest hlen hv g hg]
          rfl
        · have hsafe2 : htmlSafe b = false := by simpa using hsafe
          rw [hsafe2]
          simp only [Bool.false_eq_true, if_false, List.append_assoc]
          rw [unquoteLoop_escapeByte g b _ hb, ih rest hlen hv g hg]
          rfl
      · have hb8 : 0x80 ≤ b.val := by omega
        have hvalid : ¬ ((DecodeRune (b :: rest)).1 = RuneError ∧ (DecodeRune (b :: rest)).2 = 1)
            ∧ validLoop n ((b :: rest).drop (DecodeRune (b :: rest)).2) = true := by
          simp only [validLoop] at hv
          by_cases hc : (DecodeRune (b :: rest)).1 = RuneError ∧ (DecodeRune (b :: rest)).2 = 1
          · simp [hc] at hv
          · simp only [hc, if_false] at hv
            exact ⟨hc, hv⟩
        obtain ⟨hok, hv2⟩ := hvalid
        have hrune : RuneAt (b :: rest) (DecodeRune (b :: rest)).1 (DecodeRune (b :: rest)).2 := by
          rcases DecodeRune_cases b rest hb8 with h | h
          · exact absurd ⟨by rw [h], by rw [h]⟩ hok
          · exact h
        obtain ⟨henc, hsz2, hszl⟩ := EncodeRune_of_RuneAt hrune
        have hdl : ((b :: rest).drop (DecodeRune (b :: rest)).2).length ≤ n := by
          simp only [List.length_drop, List.length_cons] at hn ⊢
          omega
        by_cases hls : (DecodeRune (b :: rest)).1 = 0x2028 ∨ (DecodeRune (b :: rest)).1 = 0x2029
        · have hstep : appendStringLoop (n + 1) (b :: rest)
              = [92, 117, 50, 48, 50, hexDigit ((DecodeRune (b :: rest)).1 % 16)]
                ++ appendStringLoop n ((b :: rest).drop (DecodeRune (b :: rest)).2) := by
            simp only [appendStringLoop, hb, hok, hls, if_true, if_false]
          rw [hstep] at hf ⊢
          have hg : (appendStringLoop n ((b :: rest).drop (DecodeRune (b :: rest)).2)
              ++ 34 :: tail).length < g := by
            simp only [List.length_append, List.length_cons] at hf ⊢
            omega
          have h50 : hexVal 50 = some 2 := by decide
          have h48 : hexVal 48 = some 0 := by decide
          have hd : hexVal (hexDigit ((DecodeRune (b :: rest)).1 % 16))
              = some ((DecodeRune (b :: rest)).1 % 16) := hexVal_hexDigit_of_lt (by omega)
          have hu := unquoteLoop_u4 g 50 48 50 (hexDigit ((DecodeRune (b :: rest)).1 % 16))
            2 0 2 ((DecodeRune (b :: rest)).1 % 16)
            (appendStringLoop n ((b :: rest).drop (DecodeRune (b :: rest)).2) ++ 34 :: tail)
            h50 h48 h50 hd (by omega)
          simp only [List.cons_append, List.nil_append]
          rw [hu, ih _ hdl hv2 g hg]
          have hr : 2 * 4096 + 0 * 256 + 2 * 16 + (DecodeRune (b :: rest)).1 % 16
              = (DecodeRune (b :: rest)).1 := by omega
          rw [hr, henc]
          simp
        · have hstep : appendStringLoop (n + 1) (b :: rest)
              = (b :: rest).take (DecodeRune (b :: rest)).2
                ++ appendStringLoop n ((b :: rest).drop (DecodeRune (b :: rest)).2) := by
            simp only [appendStringLoop, hb, hok, hls, if_false]
          rw [hstep] at hf ⊢
          have hg : (appendStringLoop n ((b :: rest).drop (DecodeRune (b :: rest)).2)
              ++ 34 :: tail).length < g := by
            simp only [List.length_append, List.length_cons, List.length_take] at hf ⊢
            simp only [List.length_cons] at hszl
            omega
          have htk : (b :: rest).take (DecodeRune (b :: rest)).2
              = b :: rest.take ((DecodeRune (b :: rest)).2 - 1) := by
            obtain ⟨k, hk⟩ : ∃ k, (DecodeRune (b :: rest)).2 = k + 1 :=
              ⟨(DecodeRune (b :: rest)).2 - 1, by omega⟩
            rw [hk]; simp
          have hdec := DecodeRune_of_RuneAt hrune
            (appendStringLoop n ((b :: rest).drop (DecodeRune (b :: rest)).2) ++ 34 :: tail)
          rw [List.append_assoc]
          rw [htk] at hdec ⊢
          rw [List.cons_append] at hdec ⊢
          rw [unquoteLoop_rune g b _ hb8, hdec]
          simp only
          rw [← List.cons_append, ← htk]
          have hdrop : ((b :: rest).take (DecodeRune (b :: rest)).2
              ++ (appendStringLoop n ((b :: rest).drop (DecodeRune (b :: rest)).2)
                ++ 34 :: tail)).drop (DecodeRune (b :: rest)).2
              = appendStringLoop n ((b :: rest).drop (DecodeRune (b :: rest)).2)
                ++ 34 :: tail := by
            rw [List.drop_append_of_le_length (by simp only [List.length_take]; omega)]
            rw [List.drop_eq_nil_of_le (by simp only [List.length_take]; omega)]
            rfl
          rw [hdrop, ih _ hdl hv2 g hg, henc]
          simp

/-- A key that is valid UTF-8 is read back from its literal. -/
theorem parseString_appendString (k : GoString) (hk : ValidString k = true)
    (tail : List Byte) : parseString (appendString k ++ tail) = some (k, tail) := by
  have hshape : appendString k ++ tail
      = 34 :: (appendStringLoop k.length k ++ 34 :: tail) := by
    simp [appendString]
  rw [hshape]
  unfold parseString
  simp only [if_true]
  exact unquoteLoop_appendStringLoop k.length k (le_refl _) hk tail _ (by omega)

theorem base64Encode_plain (v : List Byte) : ∀ x ∈ base64Encode v, Plain x := by
  have hchar : ∀ n, n < 64 → Plain (b64Char n) := by
    intro n hn
    have := b64Char_plain ⟨n, hn⟩
    exact ⟨this.1, this.2.1, this.2.2.1, this.2.2.2.1⟩
  have hpad : Plain 61 := by unfold Plain; decide
  induction v using base64Encode.induct with
  | case1 a b c rest ih =>
    have ha := a.isLt
    have hb := b.isLt
    have hc := c.isLt
    intro x hx
    rw [base64Encode] at hx
    simp only [List.mem_cons] at hx
    rcases hx with rfl | rfl | rfl | rfl | hx
    · exact hchar _ (by omega)
    · exact hchar _ (by omega)
    · exact hchar _ (by omega)
    · exact hchar _ (by omega)
    · exact ih x hx
  | case2 a b =>
    have ha := a.isLt
    have hb := b.isLt
    intro x hx
    rw [base64Encode] at hx
    simp only [List.mem_cons, List.mem_singleton, List.not_mem_nil, or_false] at hx
    rcases hx with rfl | rfl | rfl | rfl
    · exact hchar _ (by omega)
    · exact hchar _ (by omega)
    · exact hchar _ (by omega)
    · exact hpad
  | case3 a =>
    have ha := a.isLt
    intro x hx
    rw [base64Encode] at hx
    simp only [List.mem_cons, List.mem_singleton, List.not_mem_nil, or_false] at hx
    rcases hx with rfl | rfl | rfl | rfl
    · exact hchar _ (by omega)
    · exact hchar _ (by omega)
    · exact hpad
    · exact hpad
  | case4 => intro x hx; simp [base64Encode] at hx

/-- Decoding an encoding gives the bytes back. -/
theorem base64Decode_base64Encode (v : List Byte) : base64Decode (base64Encode v) = some v := by
  unfold base64Decode
  have hf : (base64Encode v).filter (fun b => decide (b ≠ 10 ∧ b ≠ 13)) = base64Encode v := by
    rw [List.filter_eq_self]
    intro x hx
    have hp := base64Encode_plain v x hx
    have h1 : x ≠ 10 := by
      intro h; rw [h] at hp; revert hp; unfold Plain; decide
    have h2 : x ≠ 13 := by
      intro h; rw [h] at hp; revert hp; unfold Plain; decide
    simp [h1, h2]
  rw [hf]
  exact decodeQuanta_base64Encode v

theorem skipSpace_cons_of_not_space (c : Byte) (rest : List Byte)
    (h : ¬ (c = 32 ∨ c = 9 ∨ c = 13 ∨ c = 10)) : skipSpace (c :: rest) = c :: rest := by
  simp only [skipSpace, h, if_false]

/-- The value written for a byte slice is read back as that slice. -/
theorem parseValue_encode (v : Bytes) (tail : List Byte) :
    parseValue (34 :: (base64Encode v ++ 34 :: tail)) = some (v, tail) := by
  unfold parseValue parseString
  simp only [if_true]
  rw [unquoteLoop_plain (base64Encode v) (base64Encode_plain v) tail _
    (by simp only [List.length_append, List.length_cons]; omega)]
  simp only [base64Decode_base64Encode, Option.map_some']

theorem encodeMember_shape (kv : Sigma fun _ : GoString => Bytes) (tail : List Byte) :
    encodeMember kv ++ tail
      = appendString kv.1 ++ 58 :: 34 :: (base64Encode kv.2 ++ 34 :: tail) := by
  simp [encodeMember]

theorem appendString_head (k : GoString) (tail : List Byte) :
    ∃ x, appendString k ++ tail = 34 :: x := ⟨_, rfl⟩

theorem encodeMembers_cons_cons (kv kv2 : Sigma fun _ : GoString => Bytes)
    (rest : List (Sigma fun _ : GoString => Bytes)) :
    encodeMembers (kv :: kv2 :: rest) = encodeMember kv ++ 44 :: encodeMembers (kv2 :: rest) := by
  simp [encodeMembers]

theorem encodeMembers_head (kv : Sigma fun _ : GoString => Bytes)
    (rest : List (Sigma fun _ : GoString => Bytes)) (tail : List Byte) :
    ∃ x, encodeMembers (kv :: rest) ++ tail = 34 :: x := by
  cases rest with
  | nil =>
    exact ⟨(encodeMembers [kv] ++ tail).tail, by simp [encodeMembers, encodeMember, appendString]⟩
  | cons kv2 rest =>
    exact ⟨(encodeMembers (kv :: kv2 :: rest) ++ tail).tail,
      by simp [encodeMembers, encodeMember, appendString]⟩

theorem length_le_encodeMembers (l : List (Sigma fun _ : GoString => Bytes)) :
    l.length ≤ (encodeMembers l).length := by
  induction l with
  | nil => simp [encodeMembers]
  | cons kv rest ih =>
    cases rest with
    | nil => simp [encodeMembers, encodeMember, appendString]
    | cons kv2 rest =>
      rw [encodeMembers_cons_cons]
      simp only [List.length_append, List.length_cons] at ih ⊢
      omega

/-- The members written by `json.Marshal` are read back and stored in their order. -/
theorem parseMembers_encodeMembers (rest : List (Sigma fun _ : GoString => Bytes))
    (kv : Sigma fun _ : GoString => Bytes) (m : ByteMap) (tail : List Byte) (f : Nat)
    (hvalid : ∀ x ∈ kv :: rest, ValidString x.1 = true) (hf : rest.length < f) :
    parseMembers f (encodeMembers (kv :: rest) ++ 125 :: tail) m
      = some ((kv :: rest).foldl (fun m x => m.insert x.1 x.2) m, tail) := by
  have h58 : ¬ ((58 : Byte) = 32 ∨ (58 : Byte) = 9 ∨ (58 : Byte) = 13 ∨ (58 : Byte) = 10) := by
    decide
  have h34 : ¬ ((34 : Byte) = 32 ∨ (34 : Byte) = 9 ∨ (34 : Byte) = 13 ∨ (34 : Byte) = 10) := by
    decide
  have h125 : ¬ ((125 : Byte) = 32 ∨ (125 : Byte) = 9 ∨ (125 : Byte) = 13 ∨ (125 : Byte) = 10) := by
    decide
  have h44 : ¬ ((44 : Byte) = 32 ∨ (44 : Byte) = 9 ∨ (44 : Byte) = 13 ∨ (44 : Byte) = 10) := by
    decide
  induction rest generalizing kv m f with
  | nil =>
    obtain ⟨g, rfl⟩ : ∃ g, f = g + 1 := ⟨f - 1, by simp at hf; omega⟩
    have hk := hvalid kv (List.mem_cons_self _ _)
    have hshape : encodeMembers [kv] ++ 125 :: tail
        = appendString kv.1 ++ 58 :: 34 :: (base64Encode kv.2 ++ 34 :: 125 :: tail) := by
      rw [encodeMembers, encodeMember_shape]
    rw [hshape]
    unfold parseMembers
    rw [parseString_appendString kv.1 hk]
    simp only [skipSpace_cons_of_not_space 58 _ h58, if_true,
      skipSpace_cons_of_not_space 34 _ h34, parseValue_encode,
      skipSpace_cons_of_not_space 125 _ h125, List.foldl_cons, List.foldl_nil]
  | cons kv2 rest ih =>
    obtain ⟨g, rfl⟩ : ∃ g, f = g + 1 := ⟨f - 1, by simp at hf; omega⟩
    have hk := hvalid kv (List.mem_cons_self _ _)
    have hshape : encodeMembers (kv :: kv2 :: rest) ++ 125 :: tail
        = appendString kv.1 ++ 58 :: 34 :: (base64Encode kv.2 ++ 34 :: 44 ::
            (encodeMembers (kv2 :: rest) ++ 125 :: tail)) := by
      rw [encodeMembers_cons_cons, List.append_assoc, encodeMember_shape]
      rfl
    rw [hshape]
    unfold parseMembers
    rw [parseString_appendString kv.1 hk]
    obtain ⟨x, hx⟩ := encodeMembers_head kv2 rest (125 :: tail)
    have hc : (44 : Byte) ≠ 125 := by decide
    simp only [skipSpace_cons_of_not_space 58 _ h58, if_true,
      skipSpace_cons_of_not_space 34 _ h34, parseValue_encode,
      skipSpace_cons_of_not_space 44 _ h44, hc, if_false]
    have hsk : skipSpace (encodeMembers (kv2 :: rest) ++ 125 :: tail)
        = encodeMembers (kv2 :: rest) ++ 125 :: tail := by
      rw [hx]; exact skipSpace_cons_of_not_space 34 _ h34
    rw [hsk, ih kv2 (m.insert kv.1 kv.2) g
      (fun y hy => hvalid y (List.mem_cons_of_mem _ hy)) (by simp at hf; omega)]
    rfl

/-- Decoding what `json.Marshal` wrote for pairs with valid UTF-8 keys stores the pairs in
the order written. -/
theorem jsonUnmarshal_members (l : List (Sigma fun _ : GoString => Bytes))
    (hvalid : ∀ x ∈ l, ValidString x.1 = true) :
    ∃ m : ByteMap, jsonUnmarshal (123 :: (encodeMembers l ++ [125])) = .ok m ∧
      m = l.foldl (fun m x => m.insert x.1 x.2) ∅ := by
  have h123 : ¬ ((123 : Byte) = 32 ∨ (123 : Byte) = 9 ∨ (123 : Byte) = 13 ∨ (123 : Byte) = 10) := by
    decide
  have h125 : ¬ ((125 : Byte) = 32 ∨ (125 : Byte) = 9 ∨ (125 : Byte) = 13 ∨ (125 : Byte) = 10) := by
    decide
  have h34 : ¬ ((34 : Byte) = 32 ∨ (34 : Byte) = 9 ∨ (34 : Byte) = 13 ∨ (34 : Byte) = 10) := by
    decide
  have hnull : ∀ t : List Byte, ¬ ((123 :: t).take 4 = [110, 117, 108, 108]) := by
    intro t h
    have := congrArg List.head? h
    simp at this
  refine ⟨_, ?_, rfl⟩
  unfold jsonUnmarshal
  rw [skipSpace_cons_of_not_space 123 _ h123]
  simp only [hnull, if_false, if_true]
  cases l with
  | nil =>
    simp only [encodeMembers, List.nil_append]
    rw [skipSpace_cons_of_not_space 125 _ h125]
    simp only [if_true, skipSpace, List.foldl_nil]
  | cons kv rest =>
    obtain ⟨x, hx⟩ := encodeMembers_head kv rest [125]
    have hsk : skipSpace (encodeMembers (kv :: rest) ++ [125]) = 34 :: x := by
      rw [hx]; exact skipSpace_cons_of_not_space 34 _ h34
    rw [hsk]
    have hc : (34 : Byte) ≠ 125 := by decide
    simp only [hc, if_false]
    rw [← hx, parseMembers_encodeMembers rest kv ∅ [] _ hvalid
      (by
        have h1 := length_le_encodeMembers (kv :: rest)
        simp only [List.length_append, List.length_cons, List.length_nil] at h1 ⊢
        omega)]
    simp only [skipSpace, if_true]

/-- What a loop that stores pairs one after the other leaves under a key. -/
theorem lookup_foldl_insert {β : Type} (l : List (Sigma fun _ : GoString => β))
    (hl : l.NodupKeys) (m : AList (fun _ : GoString => β)) (k : GoString) :
    (l.foldl (fun m x => m.insert x.1 x.2) m).lookup k
      = match l.dlookup k with
        | some v => some v
        | none => m.lookup k := by
  induction l generalizing m with
  | nil => rfl
  | cons kv rest ih =>
    obtain ⟨k0, v0⟩ := kv
    rw [List.nodupKeys_cons] at hl
    rw [List.foldl_cons, ih hl.2]
    by_cases hk : k = k0
    · subst hk
      have hnone : rest.dlookup k = none := List.dlookup_eq_none.mpr hl.1
      rw [hnone, List.dlookup_cons_eq]
      simp
    · rw [List.dlookup_cons_ne _ _ hk]
      cases rest.dlookup k with
      | some v => rfl
      | none => exact AList.lookup_insert_ne hk

/-- The map `caughtPokemons` of `SavePokedex` holds the values of the entries whose key
starts with `"caught:"`, and nothing else. -/
theorem lookup_caughtPokemons (c : Cache) (k : GoString) :
    c.caughtPokemons.lookup k
      = if HasPrefix k caughtPrefix = true then (c.cache.lookup k).map (fun e => e.val)
        else none := by
  suffices h : ∀ (l : List (Sigma fun _ : GoString => cacheEntry)) (_ : l.NodupKeys)
      (m : ByteMap),
      (l.foldl
        (fun m kv => if HasPrefix kv.1 caughtPrefix then m.insert kv.1 kv.2.val else m) m).lookup k
        = match l.dlookup k with
          | some e => if HasPrefix k caughtPrefix = true then some e.val else m.lookup k
          | none => m.lookup k by
    unfold Cache.caughtPokemons
    rw [h c.cache.entries c.cache.nodupKeys ∅]
    have : c.cache.lookup k = c.cache.entries.dlookup k := rfl
    rw [this]
    cases c.cache.entries.dlookup k with
    | some e => simp
    | none => simp
  intro l hl
  induction l with
  | nil => intro m; rfl
  | cons kv rest ih =>
    intro m
    obtain ⟨k0, e0⟩ := kv
    rw [List.nodupKeys_cons] at hl
    rw [List.foldl_cons, ih hl.2]
    by_cases hk : k = k0
    · subst hk
      have hnone : rest.dlookup k = none := List.dlookup_eq_none.mpr hl.1
      rw [hnone, List.dlookup_cons_eq]
      by_cases hp : HasPrefix k caughtPrefix = true
      · simp [hp]
      · simp [hp]
    · rw [List.dlookup_cons_ne _ _ hk]
      have hstep : (if HasPrefix k0 caughtPrefix = true then m.insert k0 e0.val else m).lookup k
          = m.lookup k := by
        split
        · exact AList.lookup_insert_ne hk
        · rfl
      cases rest.dlookup k with
      | some e => simp only [hstep]
      | none => simp only [hstep]

/-- The store after the inserting loop of `LoadPokedex`: a decoded pair gives an entry
created at `now` with the long expiration, and the other keys keep their entries. -/
theorem lookup_insertLoaded (c : Cache) (now : Int) (m : ByteMap) (k : GoString) :
    (c.insertLoaded now m).cache.lookup k
      = match m.lookup k with
        | some v => some { createdAt := now, val := v, expireAfter := longExpiration }
        | none => c.cache.lookup k := by
  suffices h : ∀ (l : List (Sigma fun _ : GoString => Bytes)) (_ : l.NodupKeys)
      (m0 : EntryMap),
      (l.foldl
        (fun m kv => m.insert kv.1
          { createdAt := now, val := kv.2, expireAfter := longExpiration }) m0).lookup k
        = match l.dlookup k with
          | some v => some { createdAt := now, val := v, expireAfter := longExpiration }
          | none => m0.lookup k from h m.entries m.nodupKeys c.cache
  intro l hl
  induction l with
  | nil => intro m0; rfl
  | cons kv rest ih =>
    intro m0
    obtain ⟨k0, v0⟩ := kv
    rw [List.nodupKeys_cons] at hl
    rw [List.foldl_cons, ih hl.2]
    by_cases hk : k = k0
    · subst hk
      have hnone : rest.dlookup k = none := List.dlookup_eq_none.mpr hl.1
      rw [hnone, List.dlookup_cons_eq]
      simp
    · rw [List.dlookup_cons_ne _ _ hk]
      cases rest.dlookup k with
      | some v => rfl
      | none => exact AList.lookup_insert_ne hk

/-- Decoding what `json.Marshal` wrote for a map with valid UTF-8 keys gives a map with the
same pairs. -/
theorem jsonUnmarshal_jsonMarshal (m : ByteMap)
    (hvalid : ∀ k ∈ m.keys, ValidString k = true) :
    ∃ data m2, jsonMarshal m = .ok data ∧ jsonUnmarshal data = .ok m2 ∧
      ∀ k, m2.lookup k = m.lookup k := by
  have hperm : (m.entries.insertionSort fun a b => a.1 ≤ b.1).Perm m.entries :=
    List.perm_insertionSort _ _
  have hv : ∀ x ∈ (m.entries.insertionSort fun a b => a.1 ≤ b.1), ValidString x.1 = true := by
    intro x hx
    have hx2 : x ∈ m.entries := hperm.subset hx
    exact hvalid x.1 (List.mem_keys_of_mem hx2)
  obtain ⟨m2, hm2, hfold⟩ := jsonUnmarshal_members _ hv
  refine ⟨_, m2, rfl, hm2, fun k => ?_⟩
  have hnd : (m.entries.insertionSort fun a b => a.1 ≤ b.1).NodupKeys :=
    (List.perm_nodupKeys hperm).mpr m.nodupKeys
  rw [hfold, lookup_foldl_insert _ hnd]
  have hlk : (m.entries.insertionSort fun a b => a.1 ≤ b.1).dlookup k = m.lookup k :=
    List.perm_dlookup k hnd m.nodupKeys hperm
  rw [hlk]
  cases m.lookup k with
  | some v => rfl
  | none => rfl

/-- After a save without error, reading the path gives what `json.Marshal` wrote. -/
theorem readFile_after_save (c : Cache) (fs : FileSystem) (filepath : String) (data : Bytes)
    (hdata : jsonMarshal c.caughtPokemons = .ok data)
    (hsave : (c.SavePokedex goJSON fs filepath).2 = none) :
    ReadFile (c.SavePokedex goJSON fs filepath).1 filepath = .ok data := by
  have hS : c.SavePokedex goJSON fs filepath = WriteFile fs filepath data := by
    simp only [Cache.SavePokedex, goJSON, hdata]
  rw [hS] at hsave ⊢
  unfold WriteFile at hsave ⊢
  cases hfault : fs.fault filepath with
  | some e => rw [hfault] at hsave; simp at hsave
  | none => simp [ReadFile, hfault]

/-! ## The lookup contract -/

/-- C1: at every clock reading `now`, for every store and key `k`, `Get k` returns
`(v, true)` exactly when the store holds an entry for `k` whose value is `v` and which is
live at `now` (its ttl is 0 or `now - createdAt <= ttl`); when there is no entry for `k`, or
the entry is not live, `Get k` returns `(nil, false)`. -/
theorem get_found_iff_live (c : Cache) (now : Int) (k : GoString) :
    (∀ v : Bytes, c.Get now k = (v, true)
        ↔ ∃ e, c.cache.lookup k = some e ∧ e.val = v ∧ Live now e) ∧
    ((¬ ∃ e, c.cache.lookup k = some e ∧ Live now e) → c.Get now k = ([], false)) := by
  cases hlk : c.cache.lookup k with
  | none =>
    rw [get_of_lookup_none hlk]
    simp
  | some e =>
    rw [get_of_lookup_some hlk]
    by_cases hl : Live now e
    · simp only [if_pos hl]
      refine ⟨fun v => ?_, fun h => absurd ⟨e, rfl, hl⟩ h⟩
      constructor
      · intro h
        exact ⟨e, rfl, by simpa using h, hl⟩
      · rintro ⟨e', he', hv, _⟩
        cases he'
        rw [hv]
    · simp only [if_neg hl]
      refine ⟨fun v => ?_, fun _ => trivial⟩
      constructor
      · intro h
        simp at h
      · rintro ⟨e', he', _, hl'⟩
        cases he'
        exact absurd hl' hl

/-- C2: after `Set k v d` with `d > 0` at time `t0`, followed by any history of writes that
does not write `k` and whose operations run no later than `t`, `Get k` at time `t` returns
`(v, true)` when `t - t0 <= d` and `found = false` when `t - t0 > d`. -/
theorem expiry_invariant (c : Cache) (k : GoString) (v : Bytes) (d t0 t : Int)
    (ops : List (Int × Op)) (hd : 0 < d)
    (hops : ∀ p ∈ ops, ¬ p.2.writes k ∧ p.1 ≤ t) :
    (t - t0 ≤ d → ((c.Set t0 k v [d]).run ops).Get t k = (v, true)) ∧
    (d < t - t0 → (((c.Set t0 k v [d]).run ops).Get t k).2 = false) := by
  have hset : (c.Set t0 k v [d]).cache.lookup k
      = some { createdAt := t0, val := v, expireAfter := d } := lookup_set_self c t0 k v [d]
  have hw : ∀ p ∈ ops, ¬ p.2.writes k := fun p hp => (hops p hp).1
  constructor
  · intro hle
    have hlive : ∀ p ∈ ops, Live p.1 { createdAt := t0, val := v, expireAfter := d } := by
      intro p hp
      have := (hops p hp).2
      right
      show p.1 - t0 ≤ d
      omega
    rw [get_of_lookup_some (lookup_run_of_live k _ ops _ hset hw hlive)]
    have : Live t { createdAt := t0, val := v, expireAfter := d } := Or.inr hle
    rw [if_pos this]
  · intro hgt
    rcases lookup_run_of_not_writes k _ ops _ hset hw with h | h
    · rw [get_of_lookup_some h]
      have : ¬ Live t { createdAt := t0, val := v, expireAfter := d } := by
        rintro (h0 | h1)
        · simp only at h0; omega
        · simp only at h1; omega
      rw [if_neg this]
    · rw [get_of_lookup_none h]

/-- The store after two writes of `k`, for the ttl `x` that the second `Set` stores. -/
theorem overwrite_at (c : Cache) (k : GoString) (v1 v2 : Bytes) (ttl1 ttl2 : List Int)
    (t1 t2 x : Int) (hx : c.expiration ttl2 = x) :
    ((c.Set t1 k v1 ttl1).Set t2 k v2 ttl2).cache.lookup k
        = some { createdAt := t2, val := v2, expireAfter := x } ∧
    List.countP (fun k' => decide (k' = k))
        ((c.Set t1 k v1 ttl1).Set t2 k v2 ttl2).cache.keys = 1 ∧
    (∀ now, ((c.Set t1 k v1 ttl1).Set t2 k v2 ttl2).Get now k
        = if x = 0 ∨ now - t2 ≤ x then (v2, true) else ([], false)) ∧
    (0 ≤ x → ((c.Set t1 k v1 ttl1).Set t2 k v2 ttl2).Get t2 k = (v2, true)) ∧
    (∀ now, v1 ≠ v2 → ((c.Set t1 k v1 ttl1).Set t2 k v2 ttl2).Get now k ≠ (v1, true)) ∧
    (∀ k', k' ≠ k →
      ((c.Set t1 k v1 ttl1).Set t2 k v2 ttl2).cache.lookup k' = c.cache.lookup k') := by
  have hlk := lookup_set_self (c.Set t1 k v1 ttl1) t2 k v2 ttl2
  have hdef : (c.Set t1 k v1 ttl1).expiration ttl2 = x := hx
  rw [hdef] at hlk
  have hget : ∀ now, ((c.Set t1 k v1 ttl1).Set t2 k v2 ttl2).Get now k
      = if x = 0 ∨ now - t2 ≤ x then (v2, true) else ([], false) :=
    fun now => @get_of_lookup_some _ now _ _ hlk
  refine ⟨hlk, ?_, hget, ?_, ?_, ?_⟩
  · have hmem : k ∈ ((c.Set t1 k v1 ttl1).Set t2 k v2 ttl2).cache.keys := by
      rw [← AList.mem_keys, ← AList.lookup_isSome, hlk]
      rfl
    exact List.count_eq_one_of_mem (AList.keys_nodup _) hmem
  · intro h0
    rw [hget]
    have : x = 0 ∨ t2 - t2 ≤ x := by right; omega
    rw [if_pos this]
  · intro now hne
    rw [hget]
    split
    · intro h
      exact hne (by simpa using h.symm)
    · intro h
      simp at h
  · intro k' hk'
    rw [lookup_set_ne _ _ _ _ hk', lookup_set_ne _ _ _ _ hk']

/-- C3 (as amended): after `Set k v1` and then `Set k v2` at time `t2`, the store holds
exactly one entry for `k`; its value is `v2`, its creation time `t2`, and its ttl the first
duration `d` passed to the second `Set` or, when none is passed, the default of the store;
`Get k` returns `(v2, true)` at every time `now` at which that entry is live (ttl 0 or
`now - t2 <= ttl`), in particular when the second write completes if the ttl is not
negative, and `(nil, false)` at every other time; it never returns `v1` as a found value
(for `v1` other than `v2`); the entries of all other keys are those of the store before
the two writes. -/
theorem overwrite (c : Cache) (k : GoString) (v1 v2 : Bytes) (ttl1 : List Int)
    (t1 t2 : Int) :
    (∀ (d : Int) (more : List Int),
      ((c.Set t1 k v1 ttl1).Set t2 k v2 (d :: more)).cache.lookup k
          = some { createdAt := t2, val := v2, expireAfter := d } ∧
      List.countP (fun k' => decide (k' = k))
          ((c.Set t1 k v1 ttl1).Set t2 k v2 (d :: more)).cache.keys = 1 ∧
      (∀ now, ((c.Set t1 k v1 ttl1).Set t2 k v2 (d :: more)).Get now k
          = if d = 0 ∨ now - t2 ≤ d then (v2, true) else ([], false)) ∧
      (0 ≤ d → ((c.Set t1 k v1 ttl1).Set t2 k v2 (d :: more)).Get t2 k = (v2, true)) ∧
      (∀ now, v1 ≠ v2 →
        ((c.Set t1 k v1 ttl1).Set t2 k v2 (d :: more)).Get now k ≠ (v1, true)) ∧
      (∀ k', k' ≠ k →
        ((c.Set t1 k v1 ttl1).Set t2 k v2 (d :: more)).cache.lookup k'
          = c.cache.lookup k')) ∧
    (((c.Set t1 k v1 ttl1).Set t2 k v2 []).cache.lookup k
          = some { createdAt := t2, val := v2, expireAfter := c.defaultExpiration } ∧
      List.countP (fun k' => decide (k' = k))
          ((c.Set t1 k v1 ttl1).Set t2 k v2 []).cache.keys = 1 ∧
      (∀ now, ((c.Set t1 k v1 ttl1).Set t2 k v2 []).Get now k
          = if c.defaultExpiration = 0 ∨ now - t2 ≤ c.defaultExpiration then (v2, true)
            else ([], false)) ∧
      (0 ≤ c.defaultExpiration →
        ((c.Set t1 k v1 ttl1).Set t2 k v2 []).Get t2 k = (v2, true)) ∧
      (∀ now, v1 ≠ v2 → ((c.Set t1 k v1 ttl1).Set t2 k v2 []).Get now k ≠ (v1, true)) ∧
      (∀ k', k' ≠ k →
        ((c.Set t1 k v1 ttl1).Set t2 k v2 []).cache.lookup k' = c.cache.lookup k')) :=
  ⟨fun d more => overwrite_at c k v1 v2 ttl1 (d :: more) t1 t2 d rfl,
    overwrite_at c k v1 v2 ttl1 [] t1 t2 c.defaultExpiration rfl⟩

/-- C3 as stated fails: after `Set k v1 0` at time 0 and `Set k v2 (-1)` at time 1, the
store holds `v2` under `k`, with ttl -1, and `Get k` returns `(nil, false)` when the second
write has completed (time 1) and later (time 5): it does not return `v2`. -/
theorem overwrite_get_misses_on_negative_ttl :
    (((NewCache 0 0).Set 0 [1] [2] [0]).Set 1 [1] [3] [-1]).cache.lookup [1]
      = some { createdAt := 1, val := [3], expireAfter := -1 } ∧
    (((NewCache 0 0).Set 0 [1] [2] [0]).Set 1 [1] [3] [-1]).Get 1 [1] = ([], false) ∧
    (((NewCache 0 0).Set 0 [1] [2] [0]).Set 1 [1] [3] [-1]).Get 5 [1] = ([], false) := by
  decide

/-- C4: after `Set k v 0` at time `t0`, followed by any history of writes that does not
write `k`, with any number of sweeps at any times, `Get k` returns `(v, true)` at every
time `t`; and a round of the sweep never removes an entry whose ttl is 0. -/
theorem zero_ttl_permanence (c : Cache) (k : GoString) (v : Bytes) (t0 t : Int)
    (ops : List (Int × Op)) (hops : ∀ p ∈ ops, ¬ p.2.writes k) :
    ((c.Set t0 k v [0]).run ops).Get t k = (v, true) ∧
    (∀ (c' : Cache) (now : Int) (k' : GoString) (e : cacheEntry),
      c'.cache.lookup k' = some e → e.expireAfter = 0 →
      (c'.cleanupPass now).cache.lookup k' = some e) := by
  have hset : (c.Set t0 k v [0]).cache.lookup k
      = some { createdAt := t0, val := v, expireAfter := 0 } := lookup_set_self c t0 k v [0]
  have hlive : ∀ s, Live s { createdAt := t0, val := v, expireAfter := 0 } :=
    fun s => Or.inl rfl
  constructor
  · rw [get_of_lookup_some (lookup_run_of_live k _ ops _ hset hops (fun p _ => hlive p.1))]
    rw [if_pos (hlive t)]
  · intro c' now k' e he h0
    rw [lookup_cleanupPass, he]
    have : Live now e := Or.inl h0
    simp [Option.filter, this]

/-! ## Sweep and iteration -/

/-- C7: one round of the sweep at time `now` leaves under every key exactly the entry the
old store held there if that entry is live at `now` (ttl 0, or `now - createdAt <= ttl`),
unchanged in value, creation time and ttl, and nothing otherwise; so no entry of the new
store is not live at `now`, and an `Iterate` over the new store visits no key whose entry
in the old store had expired. -/
theorem sweep_removes_exactly_nonlive (c : Cache) (now : Int) :
    (∀ k, (c.cleanupPass now).cache.lookup k
        = (c.cache.lookup k).filter (fun e => decide (Live now e))) ∧
    (∀ k e, (c.cleanupPass now).cache.lookup k = some e
        ↔ (c.cache.lookup k = some e ∧ Live now e)) ∧
    (∀ (σ : Type) (f : σ → GoString → Bytes → σ × Bool) (s : σ),
      ∀ call ∈ (c.cleanupPass now).iterateLog f s,
        ∃ e, c.cache.lookup call.key = some e ∧ Live now e ∧ call.value = e.val) := by
  have hfilter : ∀ k e, (c.cleanupPass now).cache.lookup k = some e
        ↔ (c.cache.lookup k = some e ∧ Live now e) := by
    intro k e
    rw [lookup_cleanupPass]
    cases hlk : c.cache.lookup k with
    | none => simp [Option.filter]
    | some e' =>
      by_cases hl : Live now e'
      · simp only [Option.filter, hl, decide_True, if_true, Option.some.injEq]
        constructor
        · intro h; subst h; exact ⟨rfl, hl⟩
        · intro h; exact h.1
      · simp only [Option.filter, hl, decide_False, Bool.false_eq_true, if_false,
          Option.some.injEq]
        constructor
        · intro h; cases h
        · rintro ⟨h1, h2⟩; subst h1; exact absurd h2 hl
  refine ⟨lookup_cleanupPass c now, hfilter, ?_⟩
  intro σ f s call hcall
  rw [iterateLog_eq_visits] at hcall
  have hpre := visits_isPrefix f (c.cleanupPass now).cache.entries s
  have hmem : (call.key, call.value)
      ∈ (c.cleanupPass now).cache.entries.map (fun kv => (kv.1, kv.2.val)) :=
    hpre.subset (List.mem_map.mpr ⟨call, hcall, rfl⟩)
  obtain ⟨⟨k, e⟩, hkv, heq⟩ := List.mem_map.mp hmem
  simp only [Prod.mk.injEq] at heq
  have hlk : (c.cleanupPass now).cache.lookup k = some e := by
    have : e ∈ (c.cleanupPass now).cache.lookup k := AList.mem_lookup_iff.mpr hkv
    exact this
  obtain ⟨h1, h2⟩ := (hfilter k e).mp hlk
  exact ⟨e, heq.1 ▸ h1, h2, heq.2.symm⟩

/-- C8: `Iterate` leaves the store as it is.  Its calls of the visitor `f` are made on the
entries of the store in their order, each with the key and the raw value stored under it,
whatever the clock says about the entry (an expired entry that is still in the store is
visited as any other), so no key is visited twice; each call is answered by `f` in the
state its earlier calls left, and the calls go on until one answers "stop", which is then
the last call, or until every entry has been visited: the log of the calls is exactly
`visits`.  If `f` always answers "continue" the calls are the entries of the store, one
call for each.  The state in which the visitor is left is the state after these calls. -/
theorem iterate_visits {σ : Type} (c : Cache) (f : σ → GoString → Bytes → σ × Bool)
    (s : σ) :
    (c.Iterate (recording f) (s, [])).1 = c ∧
    (c.Iterate f s).1 = c ∧
    (c.Iterate (recording f) (s, [])).2.1 = (c.Iterate f s).2 ∧
    c.iterateLog f s = visits f c.cache.entries s ∧
    (c.iterateLog f s).map (fun x => (x.key, x.value))
      <+: c.cache.entries.map (fun kv => (kv.1, kv.2.val)) ∧
    ((c.iterateLog f s).length = c.cache.entries.length ∨
      ∃ call, (c.iterateLog f s).getLast? = some call ∧ call.goOn = false) ∧
    (∀ (n : Nat) (hn : n < (c.iterateLog f s).length),
      ((c.iterateLog f s).get ⟨n, hn⟩).goOn
        = (f (((c.iterateLog f s).take n).foldl
                (fun st call => (f st call.key call.value).1) s)
            ((c.iterateLog f s).get ⟨n, hn⟩).key ((c.iterateLog f s).get ⟨n, hn⟩).value).2) ∧
    (c.Iterate f s).2
      = (c.iterateLog f s).foldl (fun st call => (f st call.key call.value).1) s ∧
    ((c.iterateLog f s).map Call.key).Nodup ∧
    (∀ call ∈ c.iterateLog f s,
      ∃ e, c.cache.lookup call.key = some e ∧ call.value = e.val) ∧
    ((∀ s k v, (f s k v).2 = true) →
      (c.iterateLog f s).map (fun x => (x.key, x.value))
        = c.cache.entries.map (fun kv => (kv.1, kv.2.val))) ∧
    ((∀ s k v, (f s k v).2 = true) →
      ∀ (now : Int) k e, c.cache.lookup k = some e → ¬ Live now e →
        (k, e.val) ∈ (c.iterateLog f s).map (fun x => (x.key, x.value))) ∧
    (∀ (i : Nat) (hi : i < (c.iterateLog f s).length),
      ((c.iterateLog f s).get ⟨i, hi⟩).goOn = false → i + 1 = (c.iterateLog f s).length) := by
  have hpre := visits_isPrefix f c.cache.entries s
  have hgo : (∀ s k v, (f s k v).2 = true) → ∀ call ∈ visits f c.cache.entries s,
      call.goOn = true := by
    intro hf
    suffices h : ∀ (l : List (Sigma fun _ : GoString => cacheEntry)) (s : σ),
        ∀ call ∈ visits f l s, call.goOn = true from h _ _
    intro l
    induction l with
    | nil => intro s call hc; simp [visits] at hc
    | cons kv rest ih =>
      intro s call hc
      unfold visits at hc
      simp only [hf, if_true, List.mem_cons] at hc
      rcases hc with rfl | hc
      · rfl
      · exact ih _ call hc
  rw [iterateLog_eq_visits]
  refine ⟨rfl, rfl, ?_, rfl, hpre, visits_complete_or_stopped f _ s,
    fun n hn => visits_answer f _ s n hn, iterateLoop_eq_foldl_visits f _ s, ?_, ?_, ?_, ?_,
    ?_⟩
  · simp [Cache.Iterate, iterateLoop_recording]
  · have hkeys : (visits f c.cache.entries s).map Call.key <+: c.cache.keys := by
      have := hpre.map Prod.fst
      simpa [List.map_map, AList.keys, List.keys, Function.comp_def] using this
    exact hkeys.sublist.nodup (AList.keys_nodup _)
  · intro call hcall
    have hmem : (call.key, call.value)
        ∈ c.cache.entries.map (fun kv => (kv.1, kv.2.val)) :=
      hpre.subset (List.mem_map.mpr ⟨call, hcall, rfl⟩)
    obtain ⟨⟨k, e⟩, hkv, heq⟩ := List.mem_map.mp hmem
    simp only [Prod.mk.injEq] at heq
    have hlk : e ∈ c.cache.lookup k := AList.mem_lookup_iff.mpr hkv
    exact ⟨e, heq.1 ▸ hlk, heq.2.symm⟩
  · intro hf
    exact visits_all f _ s (hgo hf)
  · intro hf now k e hlk _
    rw [visits_all f _ s (hgo hf)]
    have hmem : (⟨k, e⟩ : Sigma fun _ : GoString => cacheEntry) ∈ c.cache.entries :=
      AList.mem_lookup_iff.mp (by rw [hlk]; exact rfl)
    exact List.mem_map.mpr ⟨⟨k, e⟩, hmem, rfl⟩
  · intro i hi hstop
    exact visits_stop f _ s i hi hstop

/-! ## Loading a snapshot -/

/-- C9: when reading the snapshot path reports that no file exists there, `LoadPokedex`
returns no error and the store it leaves is the store it was given; so a new, empty store
stays empty. -/
theorem load_missing_file_noop (J : JSON) (c : Cache) (now : Int) (fs : FileSystem)
    (filepath : String) (hmissing : ReadFile fs filepath = .error GoError.notExist) :
    c.LoadPokedex J now fs filepath = (c, none) ∧
    (∀ i d, (((NewCache i d).LoadPokedex J now fs filepath).1.cache.entries = [] ∧
      ((NewCache i d).LoadPokedex J now fs filepath).2 = none)) := by
  have h : ∀ c : Cache, c.LoadPokedex J now fs filepath = (c, none) := by
    intro c
    simp [Cache.LoadPokedex, hmissing]
  refine ⟨h c, fun i d => ?_⟩
  rw [h]
  exact ⟨rfl, rfl⟩

/-- C6: when the content of the snapshot file does not decode (`json.Unmarshal` returns an
error), `LoadPokedex` returns that error and the store it leaves is the store it was given:
every key holds the entry it held before and `Get` answers as before, so no pair of the
file has been inserted or has replaced an entry, whatever the decoder had read before it
met the error. -/
theorem load_all_or_nothing (J : JSON) (c : Cache) (now : Int) (fs : FileSystem)
    (filepath : String) (data : Bytes) (err : GoError)
    (hread : ReadFile fs filepath = .ok data) (hdecode : J.Unmarshal data = .error err) :
    (c.LoadPokedex J now fs filepath).2 = some err ∧
    (c.LoadPokedex J now fs filepath).1 = c ∧
    (∀ k, (c.LoadPokedex J now fs filepath).1.cache.lookup k = c.cache.lookup k) ∧
    (∀ t k, (c.LoadPokedex J now fs filepath).1.Get t k = c.Get t k) := by
  have hload : c.LoadPokedex J now fs filepath = (c, some err) := by
    unfold Cache.LoadPokedex
    rw [hread]
    simp only
    rw [hdecode]
  rw [hload]
  exact ⟨rfl, rfl, fun _ => rfl, fun _ _ => rfl⟩

/-- Witness of C2: an entry set with ttl 10 at time 0 is found at time 5, after a sweep at
time 3 and a write to another key at time 4. -/
theorem expiry_invariant_witness :
    (0 : Int) < 10 ∧
    (∀ p ∈ [((3 : Int), Op.sweep), (4, Op.set [9] [7] [])],
      ¬ p.2.writes [1] ∧ p.1 ≤ (5 : Int)) ∧
    (((NewCache 0 0).Set 0 [1] [2] [10]).run
      [(3, Op.sweep), (4, Op.set [9] [7] [])]).Get 5 [1] = ([2], true) :=
  ⟨by decide, by decide,
    (expiry_invariant (NewCache 0 0) [1] [2] 10 0 5 [(3, Op.sweep), (4, Op.set [9] [7] [])]
      (by decide) (by decide)).1 (by decide)⟩

/-- Witness of C4: an entry set with ttl 0 at time 0 is found at time 1000, after sweeps
at times 50 and 900. -/
theorem zero_ttl_permanence_witness :
    (∀ p ∈ [((50 : Int), Op.sweep), (900, Op.sweep)], ¬ p.2.writes [1]) ∧
    (((NewCache 0 5).Set 0 [1] [2] [0]).run [(50, Op.sweep), (900, Op.sweep)]).Get 1000 [1]
      = ([2], true) :=
  ⟨by decide,
    (zero_ttl_permanence (NewCache 0 5) [1] [2] 0 1000 [(50, Op.sweep), (900, Op.sweep)]
      (by decide)).1⟩

/-- On the sample store of three entries, a visitor that counts its calls and answers
"stop" at its second call is called twice, and one that always answers "continue" is
called three times. -/
theorem iterate_stop_example :
    (exampleStore.Iterate (fun (n : Nat) _ _ => (n + 1, decide (n < 1))) 0).2 = 2 ∧
    (exampleStore.Iterate (fun (n : Nat) _ _ => (n + 1, true)) 0).2 = 3 := by
  decide

/-! ## The snapshot round trip -/

/-- C5 (as amended): for a store whose keys with the prefix `"caught:"` are valid UTF-8,
after a `SavePokedex` without error, `LoadPokedex` of the written file into a new store
returns no error and gives a store in which `Get k` returns `(v, true)` for every key `k`
that starts with `"caught:"` and was held with value `v` in the saved store, at any time
up to the 100-year expiration after the load, and `(nil, false)` for every other key. -/
theorem snapshot_round_trip (c : Cache) (fs : FileSystem) (filepath : String) (i d tl : Int)
    (hvalid : ∀ k ∈ c.cache.keys, HasPrefix k caughtPrefix = true → ValidString k = true)
    (hsave : (c.SavePokedex goJSON fs filepath).2 = none) :
    ((NewCache i d).LoadPokedex goJSON tl (c.SavePokedex goJSON fs filepath).1 filepath).2
        = none ∧
    (∀ k e t, HasPrefix k caughtPrefix = true → c.cache.lookup k = some e →
      t - tl ≤ longExpiration →
      ((NewCache i d).LoadPokedex goJSON tl
        (c.SavePokedex goJSON fs filepath).1 filepath).1.Get t k = (e.val, true)) ∧
    (∀ k t, (HasPrefix k caughtPrefix = false ∨ c.cache.lookup k = none) →
      ((NewCache i d).LoadPokedex goJSON tl
        (c.SavePokedex goJSON fs filepath).1 filepath).1.Get t k = ([], false)) := by
  have hkeys : ∀ k ∈ c.caughtPokemons.keys, ValidString k = true := by
    intro k hk
    have hsome : (c.caughtPokemons.lookup k).isSome = true :=
      AList.lookup_isSome.mpr (AList.mem_keys.mpr hk)
    rw [lookup_caughtPokemons] at hsome
    by_cases hp : HasPrefix k caughtPrefix = true
    · rw [if_pos hp] at hsome
      apply hvalid k _ hp
      rw [← AList.mem_keys, ← AList.lookup_isSome]
      cases hlk : c.cache.lookup k with
      | some e => rfl
      | none => rw [hlk] at hsome; simp at hsome
    · rw [if_neg hp] at hsome; simp at hsome
  obtain ⟨data, m2, hdata, hdec, hm2⟩ := jsonUnmarshal_jsonMarshal c.caughtPokemons hkeys
  have hread := readFile_after_save c fs filepath data hdata hsave
  have hload : (NewCache i d).LoadPokedex goJSON tl (c.SavePokedex goJSON fs filepath).1
      filepath = ((NewCache i d).insertLoaded tl m2, none) := by
    have hU : goJSON.Unmarshal data = .ok m2 := hdec
    simp only [Cache.LoadPokedex, hread, hU]
  rw [hload]
  have hlk : ∀ k, ((NewCache i d).insertLoaded tl m2).cache.lookup k
      = match c.caughtPokemons.lookup k with
        | some v => some { createdAt := tl, val := v, expireAfter := longExpiration }
        | none => none := by
    intro k
    rw [lookup_insertLoaded, hm2]
    cases c.caughtPokemons.lookup k with
    | some v => rfl
    | none => rfl
  refine ⟨rfl, ?_, ?_⟩
  · intro k e t hp he ht
    have h1 := hlk k
    rw [lookup_caughtPokemons, if_pos hp, he] at h1
    simp only [Option.map_some'] at h1
    rw [get_of_lookup_some h1]
    have : Live t { createdAt := tl, val := e.val, expireAfter := longExpiration } :=
      Or.inr ht
    rw [if_pos this]
  · intro k t hk
    have h1 := hlk k
    have hnone : c.caughtPokemons.lookup k = none := by
      rw [lookup_caughtPokemons]
      rcases hk with hp | hn
      · simp [hp]
      · simp [hn]
    rw [hnone] at h1
    exact get_of_lookup_none h1

/-- Witness of C5 (as amended), on the example of the specification: after save and
reload, `"caught:pikachu"` is found with its bytes. -/
theorem snapshot_round_trip_witness :
    (∀ k ∈ exampleStore.cache.keys, HasPrefix k caughtPrefix = true → ValidString k = true) ∧
    (exampleStore.SavePokedex goJSON emptyFS pokedexFile).2 = none ∧
    ((NewCache 0 0).LoadPokedex goJSON 10
        (exampleStore.SavePokedex goJSON emptyFS pokedexFile).1 pokedexFile).1.Get 11
      [99, 97, 117, 103, 104, 116, 58, 112, 105, 107, 97, 99, 104, 117] = ([1, 2, 3], true) :=
  ⟨by decide, by decide,
    (snapshot_round_trip exampleStore emptyFS pokedexFile 0 0 10 (by decide) (by decide)).2.1
      [99, 97, 117, 103, 104, 116, 58, 112, 105, 107, 97, 99, 104, 117]
      { createdAt := 0, val := [1, 2, 3], expireAfter := 0 } 11 (by decide) (by decide)
      (by decide)⟩

/-- C5 as stated fails: the key `"caught:\xff"` starts with `"caught:"` and is held with
value `[1]`; the save and the reload succeed; yet in the reloaded store `Get` does not find
that key, and finds `[1]` under `"caught:\ufffd"` (the key with the invalid byte replaced
by U+FFFD), a key the saved store did not hold. -/
theorem snapshot_round_trip_fails_on_invalid_utf8 :
    HasPrefix [99, 97, 117, 103, 104, 116, 58, 255] caughtPrefix = true ∧
    badKeyStore.Get 1 [99, 97, 117, 103, 104, 116, 58, 255] = ([1], true) ∧
    (badKeyStore.SavePokedex goJSON emptyFS pokedexFile).2 = none ∧
    ((NewCache 0 0).LoadPokedex goJSON 0
      (badKeyStore.SavePokedex goJSON emptyFS pokedexFile).1 pokedexFile).2 = none ∧
    ((NewCache 0 0).LoadPokedex goJSON 0
      (badKeyStore.SavePokedex goJSON emptyFS pokedexFile).1 pokedexFile).1.Get 1
        [99, 97, 117, 103, 104, 116, 58, 255] = ([], false) ∧
    badKeyStore.Get 1 [99, 97, 117, 103, 104, 116, 58, 239, 191, 189] = ([], false) ∧
    ((NewCache 0 0).LoadPokedex goJSON 0
      (badKeyStore.SavePokedex goJSON emptyFS pokedexFile).1 pokedexFile).1.Get 1
        [99, 97, 117, 103, 104, 116, 58, 239, 191, 189] = ([1], true) := by
  decide

/-- Witness of C9: on a file system without files, `LoadPokedex` returns no error and
leaves a store with one entry as it is. -/
theorem load_missing_file_noop_witness :
    ReadFile emptyFS pokedexFile = .error GoError.notExist ∧
    ((NewCache 0 0).Set 0 [1] [2] []).LoadPokedex goJSON 7 emptyFS pokedexFile
      = ((NewCache 0 0).Set 0 [1] [2] [], none) :=
  ⟨rfl,
    (load_missing_file_noop goJSON ((NewCache 0 0).Set 0 [1] [2] []) 7 emptyFS pokedexFile
      rfl).1⟩

/-- Witness of C6: the file content `{"a":"AQ==",` (a well-formed pair, then the end of
the input) does not decode, and `LoadPokedex` leaves the key `a` without an entry. -/
theorem load_all_or_nothing_witness :
    ReadFile (singleFileFS pokedexFile [123, 34, 97, 34, 58, 34, 65, 81, 61, 61, 34, 44])
        pokedexFile
      = .ok [123, 34, 97, 34, 58, 34, 65, 81, 61, 61, 34, 44] ∧
    goJSON.Unmarshal [123, 34, 97, 34, 58, 34, 65, 81, 61, 61, 34, 44]
      = .error decodeError ∧
    ((NewCache 0 0).LoadPokedex goJSON 7
        (singleFileFS pokedexFile [123, 34, 97, 34, 58, 34, 65, 81, 61, 61, 34, 44])
        pokedexFile).1.cache.lookup [97] = none :=
  ⟨rfl, rfl,
    ((load_all_or_nothing goJSON (NewCache 0 0) 7
      (singleFileFS pokedexFile [123, 34, 97, 34, 58, 34, 65, 81, 61, 61, 34, 44])
      pokedexFile [123, 34, 97, 34, 58, 34, 65, 81, 61, 61, 34, 44]
      decodeError rfl rfl).2.2.1 [97]).trans rfl⟩

/-! ## The host program -/

/-- The `exit` command calls `SavePokedex` once and ends the process with code 0. -/
theorem step_exit (W : World) (h : Host) (text : String) (args : List String)
    (hrun : h.status = Status.running) (hexit : W.fields text = "exit" :: args) :
    (h.step W (Event.line text)).status = Status.exited 0 ∧
    (h.step W (Event.line text)).saves = h.saves + 1 := by
  simp [Host.step, hrun, hexit, commandNames, CommandExit, saveAndExit]

/-- A signal calls `SavePokedex` once and ends the process with code 1. -/
theorem step_signal (W : World) (h : Host) (hrun : h.status = Status.running) :
    (h.step W Event.signal).status = Status.exited 1 ∧
    (h.step W Event.signal).saves = h.saves + 1 := by
  simp [Host.step, hrun, signalHandler]

/-- A read error ends the process by the return of `main`, without a call of
`SavePokedex`. -/
theorem step_readError (W : World) (h : Host) (hrun : h.status = Status.running) :
    (h.step W Event.readError).status = Status.returned ∧
    (h.step W Event.readError).saves = h.saves ∧
    (h.step W Event.readError).fs = h.fs := by
  simp [Host.step, hrun]

/-- C10 (fails on the code): after a successful `LoadPokedex` (here of a missing file),
when the first `Readline` returns an error the loop of `main` breaks and `main` returns:
the process has ended and `SavePokedex` has not been called. -/
theorem main_returns_without_save_on_read_error :
    (main sampleWorld emptyFS [Event.readError]).status = Status.returned ∧
    (main sampleWorld emptyFS [Event.readError]).saves = 0 := by
  decide

end Pokedex
